import Mathlib

/-!
Verification of the homelab-mcp inventory resolution and endpoint/session layer.

This file shallowly embeds the Python sources of the repository:

* `ansible_mcp_server.py` — the recursive inventory tree resolver
  (`_extract_hosts`) and group lookup (`_find_group`), plus the module-level
  inventory cache and `reload_inventory`;
* `docker_mcp_podman.py` — endpoint resolution from the Ansible inventory with
  fallback to environment variables (`load_container_hosts_from_ansible`,
  `load_container_hosts_from_env`);
* `pihole_mcp.py` — the session-token cache (`get_pihole_session`,
  `get_cached_session`);
* `ping_mcp_server.py` — the fan-out group ping (`ping_host`, `ping_group`,
  `get_host_ip`) and its inventory cache.

Conventions of the embedding:

* Python `dict`s are insertion-ordered association lists; assignment to an
  existing key replaces its value in place, assignment to a fresh key appends.
* YAML values are the inductive `Val`; `Val.null` plays the role of Python
  `None`.  Python truthiness is `truthy`.
* Python string operations are modelled on the character list `String.data`
  (`py_starts_with`, `py_ends_with`, `py_mid`, `py_lower`, `py_is_digit`),
  which coincides with CPython's per-character semantics on the ASCII data
  involved.
* Places where the Python code would raise on structurally malformed input
  (e.g. a `hosts` key whose value is not a mapping, where `.items()` raises)
  are modelled as contributing nothing; all claims concern well-formed
  inventories, on which the embedding and the source agree.
* External effects (the wall clock, HTTP responses, subprocess results, the
  process environment) are passed in as explicit parameters.

The missing repository module `mcp_config_loader` (only imported by the
sources) is modelled from the specification where a claim depends on it; such
definitions are marked `Modelled from the spec` in their doc comments.
-/

set_option maxHeartbeats 1600000

namespace HomelabMcp

/-! ## Python-style string helpers -/

/-- Python `s.startswith(p)`: `p.data` is a prefix of `s.data`. -/
def py_starts_with (s p : String) : Bool :=
  p.data.isPrefixOf s.data

/-- Python `s.endswith(p)`: `p.data` is a suffix of `s.data`. -/
def py_ends_with (s p : String) : Bool :=
  p.data.isSuffixOf s.data

/-- Python `s[a:-b]` (used as `key[7:-9]` in the sources): drop `a` characters
at the front and `b` characters at the back. -/
def py_mid (s : String) (a b : Nat) : String :=
  ⟨((s.data.drop a).take ((s.data.drop a).length - b))⟩

/-- Python `s.lower()` (ASCII data only in this repository). -/
def py_lower (s : String) : String :=
  ⟨s.data.map Char.toLower⟩

/-- Python `s.isdigit()`: non-empty and all characters digits. -/
def py_is_digit (s : String) : Bool :=
  !s.data.isEmpty && s.data.all Char.isDigit

/-! ## YAML-like values and Python truthiness -/

/-- A parsed YAML value, as `yaml.safe_load` produces it: strings, integers,
`None`, and insertion-ordered mappings. -/
inductive Val where
  | s (str : String)
  | i (n : Int)
  | null
  | m (entries : List (String × Val))
deriving Repr

/-- Entries of a YAML mapping, in insertion order. -/
abbrev Entries := List (String × Val)

/-- First-match association lookup — Python `data[key]` / `key in data` on a
dict (whose keys are unique, making first-match exact). -/
def lookupV : Entries → String → Option Val
  | [], _ => none
  | (k, v) :: rest, key => if k = key then some v else lookupV rest key

/-- Python truthiness of a YAML value (`bool(v)`). -/
def truthy : Val → Bool
  | .null => false
  | .s str => !str.isEmpty
  | .i n => n != 0
  | .m entries => !entries.isEmpty

/-! ## `ansible_mcp_server._extract_hosts` -/

/-- The per-host record accumulated by `_extract_hosts`:
`{"vars": host_vars or {}, "groups": [...]}`. -/
structure HostInfo where
  vars : Val
  groups : List String
deriving Repr

/-- The accumulating host map of `_extract_hosts` (a Python dict keyed by
hostname, in insertion order). -/
abbrev HMap := List (String × HostInfo)

/-- First-match lookup in the host map. -/
def lookupH : HMap → String → Option HostInfo
  | [], _ => none
  | (k, v) :: rest, key => if k = key then some v else lookupH rest key

/-- `host_vars or {}` — Python's falsy-to-`{}` coercion at line 152 of
`ansible_mcp_server.py`. -/
def norm_vars (v : Val) : Val := if truthy v then v else .m []

/-- In-place `hosts[name]["groups"].extend(gs)` on the first entry keyed
`name` (dict keys are unique, so "first" is exact). -/
def extendGroups : HMap → String → List String → HMap
  | [], _, _ => []
  | (k, info) :: rest, name, gs =>
    if k = name then (k, ⟨info.vars, info.groups ++ gs⟩) :: rest
    else (k, info) :: extendGroups rest name gs

/-- One step of the merge loops (lines 161–165 and 171–175 of
`ansible_mcp_server.py`): if the hostname is already present only extend its
groups, otherwise insert the record as-is. -/
def mergeOne (mp : HMap) (name : String) (info : HostInfo) : HMap :=
  if (lookupH mp name).isSome then extendGroups mp name info.groups
  else mp ++ [(name, info)]

/-- Merge a recursively-extracted child host map into the accumulating map. -/
def mergeHosts (mp : HMap) (child : HMap) : HMap :=
  child.foldl (fun acc p => mergeOne acc p.1 p.2) mp

/-- Lines 150–154 of `ansible_mcp_server.py`: record a host declared directly
under the node's `hosts` key — insert with the current variables only when the
hostname is new, then append the current group path when it is non-empty. -/
def addDirect (mp : HMap) (name : String) (hv : Val) (path : String) : HMap :=
  let m1 := if (lookupH mp name).isSome then mp else mp ++ [(name, ⟨norm_vars hv, []⟩)]
  if path = "" then m1 else extendGroups m1 name [path]

/-- `f"{path}/{child_name}" if path else child_name`. -/
def joinPath (path k : String) : String :=
  if path = "" then k else path ++ "/" ++ k

/-- The direct-hosts block of `_extract_hosts` (lines 149–154): fold
`addDirect` over the node's `hosts` mapping, starting from the empty map. -/
def extractHostsBlock (entries : Entries) (path : String) : HMap :=
  match lookupV entries "hosts" with
  | some (.m hs) => hs.foldl (fun mp p => addDirect mp p.1 p.2 path) []
  | _ => []

/-- The ordered list of sub-nodes `_extract_hosts` recurses into, with the
group path each one is given: first every entry of the `children` mapping
(lines 156–165), then every other key not in `{hosts, children, vars}`
(lines 167–175), in insertion order. -/
def childItems (entries : Entries) (path : String) : List (Val × String) :=
  (match lookupV entries "children" with
   | some (.m cs) => cs.map (fun p => (p.2, joinPath path p.1))
   | _ => []) ++
  entries.filterMap (fun p =>
    if p.1 = "hosts" ∨ p.1 = "children" ∨ p.1 = "vars" then none
    else some (p.2, joinPath path p.1))

theorem sizeOf_lookupV {es : Entries} {k : String} {v : Val} (h : lookupV es k = some v) :
    sizeOf v < sizeOf es := by
  induction es with
  | nil => simp [lookupV] at h
  | cons p rest ih =>
    obtain ⟨k', v'⟩ := p
    simp only [lookupV] at h
    split at h
    · cases h; simp; omega
    · have := ih h; simp; omega

theorem sizeOf_mem {es : Entries} {p : String × Val} (h : p ∈ es) :
    sizeOf p.2 < sizeOf es := by
  induction es with
  | nil => simp at h
  | cons q rest ih =>
    rw [List.mem_cons] at h
    rcases h with rfl | h
    · obtain ⟨a, b⟩ := p; simp; omega
    · have := ih h; simp; omega

theorem childItems_sizeOf {entries : Entries} {path : String} {cv : Val} {cp : String}
    (h : (cv, cp) ∈ childItems entries path) : sizeOf cv < 1 + sizeOf entries := by
  unfold childItems at h
  rw [List.mem_append] at h
  rcases h with h | h
  · split at h
    next cs hcs =>
      rw [List.mem_map] at h
      obtain ⟨p, hp, hpe⟩ := h
      have h1 : sizeOf p.2 < sizeOf cs := sizeOf_mem hp
      have h2 : sizeOf (Val.m cs) < sizeOf entries := sizeOf_lookupV hcs
      have hcv : cv = p.2 := by cases hpe; rfl
      subst hcv
      simp at h2
      omega
    next => simp at h
  · rw [List.mem_filterMap] at h
    obtain ⟨p, hp, hpe⟩ := h
    have h1 : sizeOf p.2 < sizeOf entries := sizeOf_mem hp
    split at hpe
    · simp at hpe
    · have hcv : cv = p.2 := by cases hpe; rfl
      subst hcv
      omega

/-- `_extract_hosts(data, path)` of `ansible_mcp_server.py` (lines 144–177):
the direct-hosts block, then the recursive merges over `children` and over the
remaining keys, exactly in the source's order (`childItems`).  Non-mapping
nodes contribute nothing. -/
def extract_hosts (v : Val) (path : String) : HMap :=
  match v with
  | .m entries =>
    (childItems entries path).attach.foldl
      (fun mp q => mergeHosts mp (extract_hosts q.1.1 q.1.2))
      (extractHostsBlock entries path)
  | _ => []
termination_by sizeOf v
decreasing_by
  simp_wf
  have := @childItems_sizeOf entries path q.1.1 q.1.2 (by exact q.2)
  omega

/-- The hosts-block part of the declaration list: the occurrences of hostname
`hn` in the node's own `hosts` mapping, each tagged with the current group
path. -/
def declHostsBlock (entries : Entries) (path : String) (hn : String) : List (Val × String) :=
  match lookupV entries "hosts" with
  | some (.m hs) => hs.filterMap (fun p => if p.1 = hn then some (p.2, path) else none)
  | _ => []

/-- Specification-side view of the tree walk: the ordered list of declaration
sites of hostname `hn` in `_extract_hosts`'s traversal order, each site
carrying the raw declared variables and the group path under which the
declaration was encountered (`""` for a declaration at the root of the walk).
This definition is independent of the accumulating host map and serves as the
reference against which `extract_hosts` is proved. -/
def declList (v : Val) (path : String) (hn : String) : List (Val × String) :=
  match v with
  | .m entries =>
    declHostsBlock entries path hn ++
    (childItems entries path).attach.foldl
      (fun acc q => acc ++ declList q.1.1 q.1.2 hn) []
  | _ => []
termination_by sizeOf v
decreasing_by
  simp_wf
  have := @childItems_sizeOf entries path q.1.1 q.1.2 (by exact q.2)
  omega

theorem extract_hosts_m (entries : Entries) (path : String) :
    extract_hosts (.m entries) path =
      (childItems entries path).foldl (fun mp q => mergeHosts mp (extract_hosts q.1 q.2))
        (extractHostsBlock entries path) := by
  rw [extract_hosts]
  exact List.foldl_attach (childItems entries path)
    (fun mp q => mergeHosts mp (extract_hosts q.1 q.2)) _

theorem extract_hosts_other (v : Val) (path : String) (h : ∀ es, v ≠ .m es) :
    extract_hosts v path = [] := by
  cases v with
  | m es => exact absurd rfl (h es)
  | s str => rw [extract_hosts]; exact fun _ hh => Val.noConfusion hh
  | i n => rw [extract_hosts]; exact fun _ hh => Val.noConfusion hh
  | null => rw [extract_hosts]; exact fun _ hh => Val.noConfusion hh

theorem declList_other (v : Val) (path hn : String) (h : ∀ es, v ≠ .m es) :
    declList v path hn = [] := by
  cases v with
  | m es => exact absurd rfl (h es)
  | s str => rw [declList]; exact fun _ hh => Val.noConfusion hh
  | i n => rw [declList]; exact fun _ hh => Val.noConfusion hh
  | null => rw [declList]; exact fun _ hh => Val.noConfusion hh

theorem foldl_append_flat {α γ : Type} (g : α → List γ) :
    ∀ (l : List α) (init : List γ),
      l.foldl (fun acc a => acc ++ g a) init = init ++ l.flatMap g
  | [], init => by simp
  | a :: rest, init => by
    simp only [List.foldl_cons, List.flatMap_cons]
    rw [foldl_append_flat g rest (init ++ g a)]
    simp

theorem declList_m (entries : Entries) (path hn : String) :
    declList (.m entries) path hn =
      declHostsBlock entries path hn ++
        (childItems entries path).flatMap (fun q => declList q.1 q.2 hn) := by
  rw [declList]
  have h := List.foldl_attach (childItems entries path)
    (fun acc q => acc ++ declList q.1 q.2 hn) ([] : List (Val × String))
  rw [h, foldl_append_flat]
  simp

/-! ## Correspondence between `extract_hosts` and the declaration lists -/

/-- The group paths contributed by a list of declaration sites: every site's
path except the empty one (a declaration at the root of the walk appends no
group). -/
def pathsOf (L : List (Val × String)) : List String :=
  L.filterMap (fun q => if q.2 = "" then none else some q.2)

/-- The host record a declaration list denotes: none if the host was never
declared, otherwise the first-seen variables (coerced by `host_vars or {}`)
together with all group paths in discovery order. -/
def reprD : List (Val × String) → Option HostInfo
  | [] => none
  | (hv, p) :: rest => some ⟨norm_vars hv, pathsOf ((hv, p) :: rest)⟩

/-- Keys of a host map. -/
def keysH (m : HMap) : List String := m.map Prod.fst

/-- The invariant carried through the tree walk: unique keys, and every
hostname's entry is the denotation of its declaration list. -/
def RepOk (m : HMap) (D : String → List (Val × String)) : Prop :=
  (keysH m).Nodup ∧ ∀ k, lookupH m k = reprD (D k)

theorem lookupH_append (m1 m2 : HMap) (k : String) :
    lookupH (m1 ++ m2) k =
      match lookupH m1 k with
      | some v => some v
      | none => lookupH m2 k := by
  induction m1 with
  | nil => simp [lookupH]
  | cons p rest ih =>
    obtain ⟨k', v'⟩ := p
    by_cases h : k' = k <;> simp [lookupH, h, ih]

theorem lookupH_eq_none_iff (m : HMap) (k : String) :
    lookupH m k = none ↔ k ∉ keysH m := by
  induction m with
  | nil => simp [lookupH, keysH]
  | cons p rest ih =>
    obtain ⟨k', v'⟩ := p
    simp only [keysH, List.map_cons, List.mem_cons]
    by_cases h : k' = k
    · subst h
      simp [lookupH]
    · simp only [lookupH, if_neg h]
      rw [ih]
      constructor
      · intro hne hmem
        rcases hmem with hh | hh
        · exact h hh.symm
        · exact hne (by simpa [keysH] using hh)
      · intro hmem hh
        exact hmem (Or.inr (by simpa [keysH] using hh))

theorem keysH_extendGroups (m : HMap) (n : String) (gs : List String) :
    keysH (extendGroups m n gs) = keysH m := by
  induction m with
  | nil => rfl
  | cons p rest ih =>
    obtain ⟨k', v'⟩ := p
    by_cases h : k' = n
    · simp [extendGroups, h, keysH]
    · simp only [extendGroups, if_neg h, keysH, List.map_cons]
      simp only [keysH] at ih
      rw [ih]

theorem lookupH_extendGroups_self (m : HMap) (n : String) (gs : List String) :
    lookupH (extendGroups m n gs) n =
      (lookupH m n).map (fun i => ⟨i.vars, i.groups ++ gs⟩) := by
  induction m with
  | nil => simp [extendGroups, lookupH]
  | cons p rest ih =>
    obtain ⟨k', v'⟩ := p
    by_cases h : k' = n
    · subst h
      simp [extendGroups, lookupH]
    · simp only [extendGroups, if_neg h, lookupH, if_neg h]
      exact ih

theorem lookupH_extendGroups_ne (m : HMap) (n k : String) (gs : List String)
    (h : k ≠ n) : lookupH (extendGroups m n gs) k = lookupH m k := by
  induction m with
  | nil => rfl
  | cons p rest ih =>
    obtain ⟨k', v'⟩ := p
    by_cases h' : k' = n
    · subst h'
      have hk : ¬(k' = k) := fun hh => h hh.symm
      simp only [extendGroups, if_pos rfl, lookupH, if_neg hk]
    · simp only [extendGroups, if_neg h', lookupH]
      by_cases h'' : k' = k
      · simp [h'']
      · simp only [if_neg h'']
        exact ih

theorem keysH_mergeOne (m : HMap) (n : String) (i : HostInfo) :
    keysH (mergeOne m n i) = if (lookupH m n).isSome then keysH m else keysH m ++ [n] := by
  unfold mergeOne
  split
  · exact keysH_extendGroups m n i.groups
  · simp [keysH]

theorem nodup_keysH_mergeOne (m : HMap) (n : String) (i : HostInfo)
    (h : (keysH m).Nodup) : (keysH (mergeOne m n i)).Nodup := by
  rw [keysH_mergeOne]
  split
  · exact h
  · next hnone =>
    have hnone' : lookupH m n = none := by
      cases hl : lookupH m n with
      | none => rfl
      | some v => rw [hl] at hnone; simp at hnone
    rw [lookupH_eq_none_iff] at hnone'
    rw [List.nodup_append]
    refine ⟨h, List.nodup_singleton n, ?_⟩
    intro a ha hb
    rw [List.mem_singleton] at hb
    subst hb
    exact hnone' ha

theorem lookupH_mergeOne_self (m : HMap) (n : String) (i : HostInfo) :
    lookupH (mergeOne m n i) n =
      match lookupH m n with
      | some j => some ⟨j.vars, j.groups ++ i.groups⟩
      | none => some i := by
  unfold mergeOne
  cases hl : lookupH m n with
  | some j => simp [hl, lookupH_extendGroups_self]
  | none =>
    simp only [hl, Option.isSome_none, Bool.false_eq_true, if_false]
    rw [lookupH_append, hl]
    simp [lookupH]

theorem lookupH_mergeOne_ne (m : HMap) (n k : String) (i : HostInfo) (h : k ≠ n) :
    lookupH (mergeOne m n i) k = lookupH m k := by
  unfold mergeOne
  split
  · exact lookupH_extendGroups_ne m n k _ h
  · rw [lookupH_append]
    cases hl : lookupH m k with
    | some v => rfl
    | none =>
      simp only [lookupH]
      rw [if_neg (fun hh : n = k => h hh.symm)]

/-- How two host records for the same hostname combine when the second map is
merged into the first: keep the first's variables, append the second's
groups. -/
def mergeOpt : Option HostInfo → Option HostInfo → Option HostInfo
  | none, j => j
  | some i, none => some i
  | some i, some j => some ⟨i.vars, i.groups ++ j.groups⟩

theorem lookupH_mem_of_nodup (c : HMap) (hc : (keysH c).Nodup) {n : String} {i : HostInfo}
    (h : (n, i) ∈ c) : lookupH c n = some i := by
  induction c with
  | nil => simp at h
  | cons p rest ih =>
    obtain ⟨k', v'⟩ := p
    rw [List.mem_cons] at h
    simp only [keysH, List.map_cons, List.nodup_cons] at hc
    rcases h with h | h
    · cases h; simp [lookupH]
    · have hk : k' ≠ n := by
        intro hh
        subst hh
        exact hc.1 (by simpa [keysH] using List.mem_map_of_mem Prod.fst h)
      simp [lookupH, hk]
      exact ih (by simpa [keysH] using hc.2) h

theorem lookupH_tail_none (k : String) (i : HostInfo) (rest : HMap)
    (hc : (keysH ((k, i) :: rest)).Nodup) : lookupH rest k = none := by
  simp only [keysH, List.map_cons, List.nodup_cons] at hc
  rw [lookupH_eq_none_iff]
  exact hc.1

theorem lookupH_mergeHosts (c : HMap) (hc : (keysH c).Nodup) :
    ∀ (m : HMap) (k : String),
      lookupH (mergeHosts m c) k = mergeOpt (lookupH m k) (lookupH c k) := by
  induction c with
  | nil =>
    intro m k
    simp [mergeHosts, lookupH, mergeOpt]
    cases lookupH m k <;> simp [mergeOpt]
  | cons p rest ih =>
    intro m k
    obtain ⟨n, i⟩ := p
    have hc' := hc
    simp only [keysH, List.map_cons, List.nodup_cons] at hc'
    have hrest : (keysH rest).Nodup := hc'.2
    have step : mergeHosts m ((n, i) :: rest) = mergeHosts (mergeOne m n i) rest := by
      simp [mergeHosts]
    rw [step, ih hrest]
    by_cases hk : k = n
    · subst hk
      rw [lookupH_tail_none k i rest hc]
      rw [lookupH_mergeOne_self]
      simp only [lookupH, if_pos rfl]
      cases lookupH m k <;> simp [mergeOpt]
    · rw [lookupH_mergeOne_ne m n k i hk]
      simp only [lookupH]
      rw [if_neg (fun hh : n = k => hk hh.symm)]

theorem nodup_keysH_mergeHosts (c : HMap) :
    ∀ (m : HMap), (keysH m).Nodup → (keysH (mergeHosts m c)).Nodup := by
  induction c with
  | nil => intro m hm; simpa [mergeHosts]
  | cons p rest ih =>
    intro m hm
    have step : mergeHosts m (p :: rest) = mergeHosts (mergeOne m p.1 p.2) rest := by
      simp [mergeHosts]
    rw [step]
    exact ih _ (nodup_keysH_mergeOne m p.1 p.2 hm)

theorem pathsOf_append (A B : List (Val × String)) :
    pathsOf (A ++ B) = pathsOf A ++ pathsOf B := by
  simp [pathsOf]

theorem reprD_merge (A B : List (Val × String)) :
    mergeOpt (reprD A) (reprD B) = reprD (A ++ B) := by
  cases A with
  | nil =>
    cases B with
    | nil => simp [reprD, mergeOpt]
    | cons b bs => obtain ⟨hv, p⟩ := b; simp [reprD, mergeOpt]
  | cons a as =>
    obtain ⟨hv, p⟩ := a
    cases B with
    | nil => simp [reprD, mergeOpt]
    | cons b bs =>
      obtain ⟨hv', p'⟩ := b
      have h1 : pathsOf ((hv, p) :: (as ++ (hv', p') :: bs)) =
          pathsOf ((hv, p) :: as) ++ pathsOf ((hv', p') :: bs) := by
        rw [← List.cons_append, pathsOf_append]
      show some (⟨norm_vars hv, pathsOf ((hv, p) :: as) ++ pathsOf ((hv', p') :: bs)⟩ : HostInfo) =
        some ⟨norm_vars hv, pathsOf ((hv, p) :: (as ++ (hv', p') :: bs))⟩
      rw [h1]

theorem extendGroups_nil (m : HMap) (n : String) : extendGroups m n [] = m := by
  induction m with
  | nil => simp [extendGroups]
  | cons p rest ih =>
    obtain ⟨k', v'⟩ := p
    by_cases h : k' = n <;> simp [extendGroups, h, ih]

theorem extendGroups_append_last (m : HMap) (n : String) (i : HostInfo)
    (gs : List String) (h : n ∉ keysH m) :
    extendGroups (m ++ [(n, i)]) n gs = m ++ [(n, ⟨i.vars, i.groups ++ gs⟩)] := by
  induction m with
  | nil => simp [extendGroups]
  | cons p rest ih =>
    obtain ⟨k', v'⟩ := p
    simp only [keysH, List.map_cons, List.mem_cons] at h
    push_neg at h
    have hk : k' ≠ n := fun hh => h.1 hh.symm
    simp only [List.cons_append, extendGroups, if_neg hk]
    exact congrArg (fun t => (k', v') :: t) (ih (by simpa [keysH] using h.2))

theorem keysH_addDirect (m : HMap) (name : String) (hv : Val) (path : String) :
    keysH (addDirect m name hv path) =
      if (lookupH m name).isSome then keysH m else keysH m ++ [name] := by
  simp only [addDirect]
  by_cases hp : path = ""
  · rw [if_pos hp]
    split
    · rfl
    · simp [keysH]
  · rw [if_neg hp, keysH_extendGroups]
    split
    · rfl
    · simp [keysH]

theorem nodup_keysH_addDirect (m : HMap) (name : String) (hv : Val) (path : String)
    (h : (keysH m).Nodup) : (keysH (addDirect m name hv path)).Nodup := by
  rw [keysH_addDirect]
  split
  · exact h
  · next hnone =>
    have hnone' : lookupH m name = none := by
      cases hl : lookupH m name with
      | none => rfl
      | some v => rw [hl] at hnone; simp at hnone
    rw [lookupH_eq_none_iff] at hnone'
    rw [List.nodup_append]
    refine ⟨h, List.nodup_singleton name, ?_⟩
    intro a ha hb
    rw [List.mem_singleton] at hb
    subst hb
    exact hnone' ha

theorem lookupH_addDirect (m : HMap) (name : String) (hv : Val) (path k : String) :
    lookupH (addDirect m name hv path) k =
      mergeOpt (lookupH m k) (if name = k then some ⟨norm_vars hv, pathsOf [(hv, path)]⟩ else none) := by
  simp only [addDirect]
  by_cases hk : k = name
  · subst hk
    rw [if_pos rfl]
    cases hl : lookupH m k with
    | some j =>
      simp only [hl, Option.isSome_some, if_true]
      by_cases hp : path = ""
      · rw [if_pos hp, hl]
        simp [mergeOpt, pathsOf, hp]
      · rw [if_neg hp, lookupH_extendGroups_self, hl]
        simp [mergeOpt, pathsOf, hp]
    | none =>
      simp only [hl, Option.isSome_none, Bool.false_eq_true, if_false]
      have hlap : lookupH (m ++ [(k, (⟨norm_vars hv, []⟩ : HostInfo))]) k
          = some ⟨norm_vars hv, []⟩ := by
        rw [lookupH_append, hl]
        simp [lookupH]
      by_cases hp : path = ""
      · rw [if_pos hp, hlap]
        simp [mergeOpt, pathsOf, hp]
      · rw [if_neg hp, lookupH_extendGroups_self, hlap]
        simp [mergeOpt, pathsOf, hp]
  · rw [if_neg (show ¬(name = k) from fun hh => hk hh.symm)]
    have hbase : lookupH (if (lookupH m name).isSome then m
        else m ++ [(name, (⟨norm_vars hv, []⟩ : HostInfo))]) k = lookupH m k := by
      split
      · rfl
      · rw [lookupH_append]
        cases hl : lookupH m k with
        | some v => rfl
        | none =>
          simp only [lookupH]
          rw [if_neg (fun hh : name = k => hk hh.symm)]
    by_cases hp : path = ""
    · rw [if_pos hp, hbase]
      cases lookupH m k <;> simp [mergeOpt]
    · rw [if_neg hp, lookupH_extendGroups_ne _ _ _ _ hk, hbase]
      cases lookupH m k <;> simp [mergeOpt]

theorem addDirect_spec (m : HMap) (D : String → List (Val × String))
    (hm : (keysH m).Nodup) (hrep : ∀ k, lookupH m k = reprD (D k))
    (name : String) (hv : Val) (path : String) :
    (keysH (addDirect m name hv path)).Nodup ∧
      ∀ k, lookupH (addDirect m name hv path) k =
        reprD (D k ++ if name = k then [(hv, path)] else []) := by
  constructor
  · exact nodup_keysH_addDirect m name hv path hm
  · intro k
    rw [lookupH_addDirect, hrep k]
    by_cases hk : name = k
    · rw [if_pos hk, if_pos hk]
      have hrepr : (some (⟨norm_vars hv, pathsOf [(hv, path)]⟩ : HostInfo)) = reprD [(hv, path)] := by
        simp [reprD]
      rw [hrepr, reprD_merge]
    · rw [if_neg hk, if_neg hk]
      have hrepr : (none : Option HostInfo) = reprD [] := rfl
      rw [hrepr, reprD_merge, List.append_nil]

theorem directHosts_fold (hs : Entries) (path : String) :
    ∀ (m0 : HMap) (D0 : String → List (Val × String)),
      (keysH m0).Nodup → (∀ k, lookupH m0 k = reprD (D0 k)) →
      (keysH (hs.foldl (fun mp p => addDirect mp p.1 p.2 path) m0)).Nodup ∧
      ∀ k, lookupH (hs.foldl (fun mp p => addDirect mp p.1 p.2 path) m0) k =
        reprD (D0 k ++ hs.filterMap (fun p => if p.1 = k then some (p.2, path) else none)) := by
  induction hs with
  | nil =>
    intro m0 D0 h1 h2
    exact ⟨h1, fun k => by simpa using h2 k⟩
  | cons p rest ih =>
    intro m0 D0 h1 h2
    obtain ⟨name, hv⟩ := p
    simp only [List.foldl_cons, List.filterMap_cons]
    obtain ⟨h1', h2'⟩ := addDirect_spec m0 D0 h1 h2 name hv path
    obtain ⟨ha, hb⟩ := ih (addDirect m0 name hv path)
      (fun k => D0 k ++ if name = k then [(hv, path)] else []) h1' h2'
    refine ⟨ha, fun k => ?_⟩
    rw [hb k]
    congr 1
    by_cases hk : name = k
    · simp [hk, List.append_assoc]
    · simp [hk]

theorem hostsBlock_spec (entries : Entries) (path : String) :
    (keysH (extractHostsBlock entries path)).Nodup ∧
    ∀ k, lookupH (extractHostsBlock entries path) k = reprD (declHostsBlock entries path k) := by
  unfold extractHostsBlock declHostsBlock
  cases hv : lookupV entries "hosts" with
  | none => exact ⟨by simp [keysH], fun k => rfl⟩
  | some v =>
    cases v with
    | m hs =>
      have := directHosts_fold hs path [] (fun _ => []) (by simp [keysH]) (fun k => rfl)
      exact ⟨this.1, fun k => by simpa using this.2 k⟩
    | s str => exact ⟨by simp [keysH], fun k => rfl⟩
    | i n => exact ⟨by simp [keysH], fun k => rfl⟩
    | null => exact ⟨by simp [keysH], fun k => rfl⟩

theorem mergeFold_spec : ∀ (L : List (Val × String)),
    (∀ p ∈ L, (keysH (extract_hosts p.1 p.2)).Nodup ∧
      ∀ k, lookupH (extract_hosts p.1 p.2) k = reprD (declList p.1 p.2 k)) →
    ∀ (m0 : HMap) (D0 : String → List (Val × String)),
      (keysH m0).Nodup → (∀ k, lookupH m0 k = reprD (D0 k)) →
      (keysH (L.foldl (fun mp q => mergeHosts mp (extract_hosts q.1 q.2)) m0)).Nodup ∧
      ∀ k, lookupH (L.foldl (fun mp q => mergeHosts mp (extract_hosts q.1 q.2)) m0) k =
        reprD (D0 k ++ L.flatMap (fun q => declList q.1 q.2 k)) := by
  intro L
  induction L with
  | nil =>
    intro _ m0 D0 h1 h2
    exact ⟨h1, fun k => by simpa using h2 k⟩
  | cons q rest ih =>
    intro IH m0 D0 h1 h2
    simp only [List.foldl_cons, List.flatMap_cons]
    have hq := IH q (List.mem_cons_self q rest)
    have hm1 : (keysH (mergeHosts m0 (extract_hosts q.1 q.2))).Nodup :=
      nodup_keysH_mergeHosts _ _ h1
    have hr1 : ∀ k, lookupH (mergeHosts m0 (extract_hosts q.1 q.2)) k =
        reprD (D0 k ++ declList q.1 q.2 k) := by
      intro k
      rw [lookupH_mergeHosts _ hq.1 m0 k, h2 k, hq.2 k, reprD_merge]
    obtain ⟨ha, hb⟩ := ih (fun p hp => IH p (List.mem_cons_of_mem q hp)) _ _ hm1 hr1
    refine ⟨ha, fun k => ?_⟩
    rw [hb k]
    congr 1
    simp [List.append_assoc]

theorem extract_spec_aux : ∀ (n : Nat) (v : Val) (path : String), sizeOf v ≤ n →
    (keysH (extract_hosts v path)).Nodup ∧
    ∀ k, lookupH (extract_hosts v path) k = reprD (declList v path k) := by
  intro n
  induction n with
  | zero =>
    intro v path h
    exfalso
    cases v <;> simp at h
  | succ n ih =>
    intro v path hle
    cases v with
    | m entries =>
      rw [extract_hosts_m]
      have base := hostsBlock_spec entries path
      have IH : ∀ p ∈ childItems entries path, (keysH (extract_hosts p.1 p.2)).Nodup ∧
          ∀ k, lookupH (extract_hosts p.1 p.2) k = reprD (declList p.1 p.2 k) := by
        intro p hp
        obtain ⟨cv, cp⟩ := p
        apply ih cv cp
        have hsz : sizeOf cv < 1 + sizeOf entries := childItems_sizeOf hp
        simp only [Val.m.sizeOf_spec] at hle
        omega
      obtain ⟨ha, hb⟩ := mergeFold_spec (childItems entries path) IH
        (extractHostsBlock entries path) (fun k => declHostsBlock entries path k)
        base.1 base.2
      refine ⟨ha, fun k => ?_⟩
      rw [hb k, declList_m]
    | s str =>
      rw [extract_hosts_other _ _ (fun _ hh => Val.noConfusion hh)]
      exact ⟨by simp [keysH], fun k => by
        rw [declList_other _ _ _ (fun _ hh => Val.noConfusion hh)]; rfl⟩
    | i nn =>
      rw [extract_hosts_other _ _ (fun _ hh => Val.noConfusion hh)]
      exact ⟨by simp [keysH], fun k => by
        rw [declList_other _ _ _ (fun _ hh => Val.noConfusion hh)]; rfl⟩
    | null =>
      rw [extract_hosts_other _ _ (fun _ hh => Val.noConfusion hh)]
      exact ⟨by simp [keysH], fun k => by
        rw [declList_other _ _ _ (fun _ hh => Val.noConfusion hh)]; rfl⟩

/-- Master correspondence: the host map built by `_extract_hosts` has unique
hostname keys, and every hostname's entry is exactly the denotation of its
ordered declaration list — first-seen variables, all group paths. -/
theorem extract_spec (v : Val) (path : String) :
    (keysH (extract_hosts v path)).Nodup ∧
    ∀ k, lookupH (extract_hosts v path) k = reprD (declList v path k) :=
  extract_spec_aux (sizeOf v) v path le_rfl

/-- C1: for every inventory tree, a hostname's entry in the map built by
`_extract_hosts` carries the variables of its *first* declaration in traversal
order (later duplicate declarations never overwrite them — first-seen wins),
while every declaration, at whatever order or depth it appears, appends its
group path to the entry's `groups` list. -/
theorem c1_first_seen_wins (v : Val) (path hn : String) (first : Val × String)
    (rest : List (Val × String)) (hdecl : declList v path hn = first :: rest) :
    lookupH (extract_hosts v path) hn =
      some ⟨norm_vars first.1, pathsOf (first :: rest)⟩ := by
  have h := (extract_spec v path).2 hn
  rw [hdecl] at h
  obtain ⟨hv, p⟩ := first
  exact h

/-- A small inventory in which host `web` is declared under two branches with
conflicting variables: directly under group `g1` (with `x = 1`) and, deeper,
under `g2/g3` (with `x = 2`). -/
def Tdup : Val := .m [
  ("children", .m [
    ("g1", .m [("hosts", .m [("web", .m [("x", .i 1)])])]),
    ("g2", .m [("children", .m [("g3", .m [("hosts", .m [("web", .m [("x", .i 2)])])])])])
  ])]

theorem c1_first_seen_wins_witness :
    declList Tdup "" "web" = [(.m [("x", .i 1)], "g1"), (.m [("x", .i 2)], "g2/g3")] ∧
    lookupH (extract_hosts Tdup "") "web" =
      some ⟨.m [("x", .i 1)], ["g1", "g2/g3"]⟩ := by
  have hdecl : declList Tdup "" "web" =
      [(.m [("x", .i 1)], "g1"), (.m [("x", .i 2)], "g2/g3")] := by
    simp [declList_m, Tdup, childItems, declHostsBlock, lookupV, joinPath]
  refine ⟨hdecl, ?_⟩
  rw [c1_first_seen_wins Tdup "" "web" _ _ hdecl]
  simp [norm_vars, truthy, pathsOf]

/-- C2: for every inventory tree, a hostname declared anywhere under the walked
root appears exactly once as a key of the resolved host map, and its `groups`
list has exactly one element per declaration site that lies under a group path
(sites are identified by their group paths, as in the claim; the walk's root
itself has the empty path and appends no group). -/
theorem c2_count_preserving (v : Val) (hn : String) (first : Val × String)
    (rest : List (Val × String)) (hdecl : declList v "" hn = first :: rest) :
    (keysH (extract_hosts v "")).count hn = 1 ∧
    ∃ info, lookupH (extract_hosts v "") hn = some info ∧
      info.groups.length = (pathsOf (first :: rest)).length := by
  obtain ⟨hnodup, hrep⟩ := extract_spec v ""
  have h := hrep hn
  rw [hdecl] at h
  obtain ⟨hv, p⟩ := first
  constructor
  · have hmem : hn ∈ keysH (extract_hosts v "") := by
      by_contra hmem
      rw [← lookupH_eq_none_iff] at hmem
      rw [hmem] at h
      exact Option.noConfusion h
    exact List.count_eq_one_of_mem hnodup hmem
  · exact ⟨_, h, rfl⟩

theorem c2_count_preserving_witness :
    declList Tdup "" "web" = [(.m [("x", .i 1)], "g1"), (.m [("x", .i 2)], "g2/g3")] ∧
    (keysH (extract_hosts Tdup "")).count "web" = 1 ∧
    ∃ info, lookupH (extract_hosts Tdup "") "web" = some info ∧
      info.groups.length =
        (pathsOf [((.m [("x", .i 1)] : Val), "g1"), (.m [("x", .i 2)], "g2/g3")]).length := by
  have hdecl : declList Tdup "" "web" =
      [(.m [("x", .i 1)], "g1"), (.m [("x", .i 2)], "g2/g3")] := by
    simp [declList_m, Tdup, childItems, declHostsBlock, lookupV, joinPath]
  exact ⟨hdecl, (c2_count_preserving Tdup "web" _ _ hdecl).1,
    (c2_count_preserving Tdup "web" _ _ hdecl).2⟩

/-! ## `ansible_mcp_server._find_group` -/

/-- Collapse a returned node value the way the Python callers observe it:
returning a `None`-valued node is indistinguishable from returning `None`
(`get_group_hosts` tests `group_data is None`, and truthiness of `None` and of
a "not found" `None` agree), so both map to `none`. -/
def collapseV : Val → Option Val
  | .null => none
  | v => some v

mutual

/-- `_find_group(data, target)` of `ansible_mcp_server.py` (lines 200–213):
first, if the node's `children` mapping has `target` as a direct key, return
that value; otherwise scan all keys in insertion order — a key equal to
`target` returns its value, and a mapping value is searched recursively, its
result kept only when truthy (`if result:`). -/
def find_group (v : Val) (target : String) : Option Val :=
  match v with
  | .m entries =>
    match lookupV entries "children" with
    | some (.m cs) =>
      match lookupV cs target with
      | some gv => collapseV gv
      | none => scanKeys entries target
    | _ => scanKeys entries target
  | _ => none

/-- The `for key, value in data.items()` loop of `_find_group`. -/
def scanKeys (es : Entries) (target : String) : Option Val :=
  match es with
  | [] => none
  | (k, kv) :: rest =>
    if k = target then collapseV kv
    else
      match kv with
      | .m _ =>
        match find_group kv target with
        | some r => if truthy r then some r else scanKeys rest target
        | none => scanKeys rest target
      | _ => scanKeys rest target

end

mutual

/-- Specification-side view of `_find_group`'s search: the values of every
node whose key equals the target, listed in the search's visiting order
(direct `children` membership of the current node first, then each key in
insertion order with its subtree). -/
def matchList (v : Val) (target : String) : List Val :=
  match v with
  | .m entries =>
    (match lookupV entries "children" with
     | some (.m cs) =>
       match lookupV cs target with
       | some gv => [gv]
       | none => []
     | _ => []) ++ scanMatches entries target
  | _ => []

/-- The per-entry continuation of `matchList`. -/
def scanMatches (es : Entries) (target : String) : List Val :=
  match es with
  | [] => []
  | (k, kv) :: rest =>
    (if k = target then [kv] else []) ++
    (match kv with
     | .m _ => matchList kv target
     | _ => []) ++
    scanMatches rest target

end

theorem find_group_m (entries : Entries) (target : String) :
    find_group (.m entries) target =
      match lookupV entries "children" with
      | some (.m cs) =>
        (match lookupV cs target with
         | some gv => collapseV gv
         | none => scanKeys entries target)
      | _ => scanKeys entries target := by
  conv_lhs => rw [find_group.eq_def]

theorem find_group_other (v : Val) (target : String) (h : ∀ es, v ≠ .m es) :
    find_group v target = none := by
  cases v with
  | m es => exact absurd rfl (h es)
  | s str => conv_lhs => rw [find_group.eq_def]
  | i n => conv_lhs => rw [find_group.eq_def]
  | null => conv_lhs => rw [find_group.eq_def]

theorem matchList_m (entries : Entries) (target : String) :
    matchList (.m entries) target =
      (match lookupV entries "children" with
       | some (.m cs) =>
         (match lookupV cs target with
          | some gv => [gv]
          | none => [])
       | _ => []) ++ scanMatches entries target := by
  conv_lhs => rw [matchList.eq_def]

theorem matchList_other (v : Val) (target : String) (h : ∀ es, v ≠ .m es) :
    matchList v target = [] := by
  cases v with
  | m es => exact absurd rfl (h es)
  | s str => conv_lhs => rw [matchList.eq_def]
  | i n => conv_lhs => rw [matchList.eq_def]
  | null => conv_lhs => rw [matchList.eq_def]

theorem scanKeys_nil (target : String) : scanKeys [] target = none := by
  conv_lhs => rw [scanKeys.eq_def]

theorem scanKeys_cons (k : String) (kv : Val) (rest : Entries) (target : String) :
    scanKeys ((k, kv) :: rest) target =
      if k = target then collapseV kv
      else
        match kv with
        | .m _ =>
          (match find_group kv target with
           | some r => if truthy r then some r else scanKeys rest target
           | none => scanKeys rest target)
        | _ => scanKeys rest target := by
  conv_lhs => rw [scanKeys.eq_def]

theorem scanMatches_nil (target : String) : scanMatches [] target = [] := by
  conv_lhs => rw [scanMatches.eq_def]

theorem scanMatches_cons (k : String) (kv : Val) (rest : Entries) (target : String) :
    scanMatches ((k, kv) :: rest) target =
      (if k = target then [kv] else []) ++
      (match kv with
       | .m _ => matchList kv target
       | _ => []) ++
      scanMatches rest target := by
  conv_lhs => rw [scanMatches.eq_def]

theorem collapseV_of_truthy (v : Val) (h : truthy v = true) : collapseV v = some v := by
  cases v with
  | null => simp [truthy] at h
  | s str => rfl
  | i n => rfl
  | m es => rfl

theorem fg_head_aux : ∀ (n : Nat),
    (∀ (v : Val) (target : String), sizeOf v ≤ n →
      (∀ r ∈ matchList v target, truthy r = true) →
      find_group v target = (matchList v target).head?) ∧
    (∀ (es : Entries) (target : String), sizeOf es ≤ n →
      (∀ r ∈ scanMatches es target, truthy r = true) →
      scanKeys es target = (scanMatches es target).head?) := by
  intro n
  induction n with
  | zero =>
    constructor
    · intro v target h
      exfalso
      cases v <;> simp at h
    · intro es target h
      exfalso
      cases es <;> simp at h
  | succ n ih =>
    constructor
    · intro v target hle hall
      cases v with
      | m entries =>
        have hsz : sizeOf entries ≤ n := by
          simp only [Val.m.sizeOf_spec] at hle
          omega
        rw [find_group_m, matchList_m]
        split
        · next cs hc =>
          split
          · next gv hg =>
            have hmem : gv ∈ matchList (Val.m entries) target := by
              simp [matchList_m, hc, hg]
            have hgv := hall gv hmem
            rw [collapseV_of_truthy gv hgv]
            rfl
          · next hg =>
            have hall' : ∀ r ∈ scanMatches entries target, truthy r = true := by
              intro r hr
              refine hall r ?_
              simp only [matchList_m, hc, hg]
              simpa using hr
            simpa using ih.2 entries target hsz hall'
        · next hc =>
          have hall' : ∀ r ∈ scanMatches entries target, truthy r = true := by
            intro r hr
            refine hall r ?_
            rw [matchList_m]
            exact List.mem_append_right _ hr
          simpa using ih.2 entries target hsz hall'
      | s str =>
        rw [find_group_other _ _ (fun _ hh => Val.noConfusion hh),
          matchList_other _ _ (fun _ hh => Val.noConfusion hh)]
        rfl
      | i nn =>
        rw [find_group_other _ _ (fun _ hh => Val.noConfusion hh),
          matchList_other _ _ (fun _ hh => Val.noConfusion hh)]
        rfl
      | null =>
        rw [find_group_other _ _ (fun _ hh => Val.noConfusion hh),
          matchList_other _ _ (fun _ hh => Val.noConfusion hh)]
        rfl
    · intro es target hle hall
      cases es with
      | nil =>
        rw [scanKeys_nil, scanMatches_nil]
        rfl
      | cons p rest =>
        obtain ⟨k, kv⟩ := p
        have hszr : sizeOf rest ≤ n := by
          simp at hle
          omega
        have hszk : sizeOf kv ≤ n := by
          simp at hle
          omega
        rw [scanKeys_cons, scanMatches_cons]
        by_cases hk : k = target
        · rw [if_pos hk, if_pos hk]
          have hmem : kv ∈ scanMatches ((k, kv) :: rest) target := by
            simp [scanMatches_cons, hk]
          have hkv := hall kv hmem
          rw [collapseV_of_truthy kv hkv]
          rfl
        · rw [if_neg hk, if_neg hk]
          have hallr : ∀ r ∈ scanMatches rest target, truthy r = true := by
            intro r hr
            refine hall r ?_
            rw [scanMatches_cons, if_neg hk]
            simp only [List.nil_append, List.mem_append]
            exact Or.inr hr
          cases kv with
          | m kes =>
            have hallk : ∀ r ∈ matchList (Val.m kes) target, truthy r = true := by
              intro r hr
              refine hall r ?_
              rw [scanMatches_cons, if_neg hk]
              simp only [List.nil_append, List.mem_append]
              exact Or.inl hr
            rw [ih.1 (Val.m kes) target hszk hallk]
            cases hmlk : matchList (Val.m kes) target with
            | nil =>
              simp only [List.head?_nil, List.nil_append]
              exact ih.2 rest target hszr hallr
            | cons r t =>
              have hr : truthy r = true :=
                hallk r (by rw [hmlk]; exact List.mem_cons_self r t)
              simp only [List.head?_cons, hr, if_true, List.nil_append, List.cons_append]
          | s str =>
            simp only [List.nil_append]
            exact ih.2 rest target hszr hallr
          | i nn =>
            simp only [List.nil_append]
            exact ih.2 rest target hszr hallr
          | null =>
            simp only [List.nil_append]
            exact ih.2 rest target hszr hallr

/-- A tree in which the group name `empty_group` occurs only as an empty node
nested below the searched root (`all.children.parent.children.empty_group:
{}`). -/
def T8 : Val :=
  .m [("children", .m [("parent", .m [("children", .m [("empty_group", .m [])])])])]

/-- C8 (counterexample): on `T8` the name `empty_group` occurs as a key in the
tree — `matchList` lists its single (empty) node — yet `_find_group` answers
not-found (`none`): the nested empty node is discarded by the `if result:`
truthiness filter on the recursive result.  (The node is listed twice by the
search order — once via the direct `children` membership check of its parent,
once via the key scan.)  This refutes the claim's "for any group name that
occurs as a key somewhere in the tree (including as an empty node), lookup
returns that node rather than not-found". -/
theorem c8_counterexample :
    find_group T8 "empty_group" = none ∧
    matchList T8 "empty_group" = [.m [], .m []] := by
  constructor
  · simp [T8, find_group, scanKeys, collapseV, truthy, lookupV]
  · simp [T8, matchList, scanMatches, lookupV]

/-- C8 (amended): group lookup by bare name follows `_find_group`'s own
deterministic depth-first search order — at each node, direct membership in
that node's `children` mapping first, then every key in insertion order,
descending into mapping values — and, provided every node in the tree whose
key equals the target is truthy (a non-empty mapping or other non-empty
value), it returns exactly the first match in that order; with no match it
returns not-found.  (Empty or `None` nodes are not covered: a nested empty
match is skipped or ends its subtree's search, which is the subject of the
counterexample.) -/
theorem c8_first_truthy_match (v : Val) (target : String)
    (hall : ∀ r ∈ matchList v target, truthy r = true) :
    find_group v target = (matchList v target).head? :=
  (fg_head_aux (sizeOf v)).1 v target le_rfl hall

/-- A tree whose group `docker_hosts` is a non-empty node nested two levels
down. -/
def T8b : Val :=
  .m [("children", .m [("g", .m [("children", .m [("docker_hosts",
    .m [("hosts", .m [("h", .null)])])])])])]

theorem c8_first_truthy_match_witness :
    find_group T8b "docker_hosts" = some (.m [("hosts", .m [("h", .null)])]) := by
  have hall : ∀ r ∈ matchList T8b "docker_hosts", truthy r = true := by
    intro r hr
    simp [T8b, matchList, scanMatches, lookupV] at hr
    subst hr
    simp [truthy]
  rw [c8_first_truthy_match T8b "docker_hosts" hall]
  simp [T8b, matchList, scanMatches, lookupV]

/-! ## Inventory cache and `reload_inventory` (`ansible_mcp_server.py`) -/

/-- The module-level inventory cache of `ansible_mcp_server.py`
(`_inventory_cache`), paired with a counter of how many times
`_load_inventory` actually read and parsed the file — the "resolution call
counter" named by the claim. -/
structure InvCacheState where
  cache : Option Val
  loadCount : Nat
deriving Repr

/-- `_load_inventory()` of `ansible_mcp_server.py` (lines 126–141): return the
cached inventory when the cache is populated; otherwise, when the file is
missing, return `{}` and leave the cache empty, and when the file is present,
parse it, store it in the cache and count one resolution.  The parsed file
content is passed as `file` (`none` = file does not exist). -/
def load_inventory (file : Option Val) (st : InvCacheState) : Val × InvCacheState :=
  match st.cache with
  | some inv => (inv, st)
  | none =>
    match file with
    | none => (.m [], st)
    | some content => (content, ⟨some content, st.loadCount + 1⟩)

/-- `reload_inventory()` of `ansible_mcp_server.py` (lines 374–386): set
`_inventory_cache = None`, then immediately call `_load_inventory()`.
(`ping_mcp_server.py` lines 383–393 has the same clear-then-load shape.) -/
def reload_inventory (file : Option Val) (st : InvCacheState) : InvCacheState :=
  (load_inventory file ⟨none, st.loadCount⟩).2

/-- C7 (counterexample): starting from a populated cache with 5 recorded
resolutions, a single `reload_inventory` — with no `get` after it — already
moves the resolution counter off 5 (to 6): the reload step itself re-runs
resolution, refuting the claim's "the counter increases … by zero for the
reload step alone" and "the invalidate/reload operation … does not itself
re-run resolution". -/
theorem c7_counterexample :
    (reload_inventory (some (.m [])) ⟨some (.m []), 5⟩).loadCount ≠ 5 := by
  simp [reload_inventory, load_inventory]

/-- C7 (amended): `reload_inventory` clears the cache and immediately re-runs
resolution exactly once — afterwards the counter has increased by exactly one
and the cache holds the freshly loaded content — and the next `get`
(`_load_inventory`) is served from the repopulated cache, changing nothing
and performing no further resolution.  A reload-then-get pair therefore still
re-executes resolution exactly once, but at the reload step rather than at
the get step. -/
theorem c7_reload_then_get (content : Val) (st : InvCacheState) :
    (reload_inventory (some content) st).loadCount = st.loadCount + 1 ∧
    (reload_inventory (some content) st).cache = some content ∧
    load_inventory (some content) (reload_inventory (some content) st) =
      (content, reload_inventory (some content) st) :=
  ⟨rfl, rfl, rfl⟩

/-! ## Pi-hole session cache (`pihole_mcp.py`) -/

/-- The outcomes of the `POST /api/auth` exchange as `get_pihole_session`
observes them: a 200 reply carrying the `session` object (`valid` flag,
`sid`, optional `validity` — absent defaults to 300), any other HTTP status,
a timeout, a connection error, or any other exception. -/
inductive AuthResp where
  | ok (valid : Bool) (sid : String) (validity : Option Int) (message : Option String)
  | httpErr (status : Nat)
  | timeout
  | connError
  | exc (msg : String)
deriving Repr, DecidableEq

/-- A cached Pi-hole session — `{'sid': ..., 'expires_at': ...}`; time is
seconds since an arbitrary origin. -/
structure Session where
  sid : String
  expires_at : Int
deriving Repr, DecidableEq

/-- The dict `get_pihole_session` returns: a session, or a structured error
(the error classifier's formatted message is abstracted to a tag). -/
inductive SessionResult where
  | session (s : Session)
  | error (tag : String)
deriving Repr, DecidableEq

/-- `get_pihole_session(host, port, password)` of `pihole_mcp.py` (lines
216–314), with the network outcome `resp` and the current wall-clock time
`now` passed explicitly (host/port only form the URL inside the abstracted
exchange).  A 200 reply with `valid` yields a session expiring at
`now + validity - 30` — the 30-second safety margin, `validity` defaulting to
300; every failure branch returns an `{'error': ...}` dict instead of
raising. -/
def get_pihole_session (resp : AuthResp) (now : Int) : SessionResult :=
  match resp with
  | .ok valid sid validity _ =>
    if valid then .session ⟨sid, now + validity.getD 300 - 30⟩
    else .error "authentication_failed"
  | .httpErr status =>
    if status = 401 then .error "http_401_unauthorized"
    else if status = 403 then .error "http_403_forbidden"
    else .error "http_error"
  | .timeout => .error "timeout"
  | .connError => .error "connection_failed"
  | .exc _ => .error "unexpected_error"

/-- The session cache (`SESSION_CACHE` / `self.session_cache`), keyed by
display name. -/
abbrev SessionCache := List (String × Session)

/-- First-match lookup in the session cache. -/
def lookupS : SessionCache → String → Option Session
  | [], _ => none
  | (k, v) :: rest, key => if k = key then some v else lookupS rest key

/-- Python dict assignment `session_cache[key] = s`. -/
def setKeyS : SessionCache → String → Session → SessionCache
  | [], key, s => [(key, s)]
  | (k, v) :: rest, key, s =>
    if k = key then (key, s) :: rest else (k, v) :: setKeyS rest key s

/-- What `get_cached_session` returns: the result dict (`{'sid': ...}` or
`{'error': ...}`). -/
inductive SidResult where
  | sid (s : String)
  | error (tag : String)
deriving Repr, DecidableEq

/-- One call's full outcome: the returned dict, the session cache afterwards,
and whether an authentication exchange was performed. -/
structure CachedOutcome where
  result : SidResult
  cache : SessionCache
  authPerformed : Bool
deriving Repr, DecidableEq

/-- `get_cached_session(display_name, host, port, api_key, session_cache)` of
`pihole_mcp.py` (lines 317–350): an empty API key errors without contacting
the server; a cached session still strictly before its expiry is returned
as-is; otherwise one authentication runs — its success is stored under the
display name, its failure is returned with the cache untouched. -/
def get_cached_session (display_name api_key : String) (cache : SessionCache)
    (now : Int) (resp : AuthResp) : CachedOutcome :=
  let auth_path : CachedOutcome :=
    match get_pihole_session resp now with
    | .session s => ⟨.sid s.sid, setKeyS cache display_name s, true⟩
    | .error e => ⟨.error e, cache, true⟩
  if api_key = "" then ⟨.error "no_api_key", cache, false⟩
  else
    match lookupS cache display_name with
    | some cached =>
      if now < cached.expires_at then ⟨.sid cached.sid, cache, false⟩
      else auth_path
    | none => auth_path

/-- C5: a successful authentication at time `t` with server-declared validity
`v` stores a token with `expires_at = t + v - 30`; every later call strictly
before that instant returns the cached token unchanged without contacting the
server; a call at or after it performs a fresh authentication, whose
successful token (validity `v'`) replaces the cached one with expiry
`now + v' - 30`. -/
theorem c5_session_expiry (name api_key sid : String) (v t : Int)
    (hkey : api_key ≠ "") :
    get_cached_session name api_key [] t (.ok true sid (some v) none) =
      ⟨.sid sid, [(name, ⟨sid, t + v - 30⟩)], true⟩ ∧
    (∀ (now : Int) (resp : AuthResp), now < t + v - 30 →
      get_cached_session name api_key [(name, ⟨sid, t + v - 30⟩)] now resp =
        ⟨.sid sid, [(name, ⟨sid, t + v - 30⟩)], false⟩) ∧
    (∀ (now v' : Int) (sid' : String), t + v - 30 ≤ now →
      get_cached_session name api_key [(name, ⟨sid, t + v - 30⟩)] now
          (.ok true sid' (some v') none) =
        ⟨.sid sid', [(name, ⟨sid', now + v' - 30⟩)], true⟩) := by
  refine ⟨?_, ?_, ?_⟩
  · simp [get_cached_session, get_pihole_session, lookupS, setKeyS, hkey]
  · intro now resp hlt
    simp [get_cached_session, lookupS, hkey, hlt]
  · intro now v' sid' hge
    simp [get_cached_session, get_pihole_session, lookupS, setKeyS, hkey, not_lt.mpr hge]

theorem c5_session_expiry_witness :
    get_cached_session "pi" "key" [] 0 (.ok true "tok1" (some 300) none) =
      ⟨.sid "tok1", [("pi", ⟨"tok1", 270⟩)], true⟩ ∧
    get_cached_session "pi" "key" [("pi", ⟨"tok1", 270⟩)] 100
        (.ok true "tok2" (some 300) none) =
      ⟨.sid "tok1", [("pi", ⟨"tok1", 270⟩)], false⟩ ∧
    get_cached_session "pi" "key" [("pi", ⟨"tok1", 270⟩)] 280
        (.ok true "tok2" (some 300) none) =
      ⟨.sid "tok2", [("pi", ⟨"tok2", 550⟩)], true⟩ := by
  obtain ⟨h1, h2, h3⟩ := c5_session_expiry "pi" "key" "tok1" 300 0 (by decide)
  refine ⟨?_, ?_, ?_⟩
  · simpa using h1
  · simpa using h2 100 (.ok true "tok2" (some 300) none) (by norm_num)
  · simpa using h3 280 300 "tok2" (by norm_num)

/-- C6: every failing authentication outcome — invalid credential (`valid =
false`), HTTP 401/403, any other HTTP status, timeout, connection failure, or
any other exception — makes `get_pihole_session` return an `'error'` dict
(never raising), and when `get_cached_session` reaches the authentication
path (no cached session for the display name, or the cached one has expired)
that error is returned as the call's result while the session cache is left
exactly as it was, so a subsequent call retries authentication. -/
theorem c6_auth_failure_not_cached (name api_key : String) (cache : SessionCache)
    (now : Int) (resp : AuthResp)
    (hkey : api_key ≠ "")
    (hfail : ∀ sid validity message, resp ≠ .ok true sid validity message)
    (hmiss : lookupS cache name = none ∨
      ∃ s, lookupS cache name = some s ∧ s.expires_at ≤ now) :
    ∃ tag, get_pihole_session resp now = .error tag ∧
      get_cached_session name api_key cache now resp = ⟨.error tag, cache, true⟩ := by
  cases hres : get_pihole_session resp now with
  | session s =>
    exfalso
    cases resp with
    | ok valid sid validity message =>
      cases valid with
      | true => exact hfail sid validity message rfl
      | false => simp [get_pihole_session] at hres
    | httpErr status =>
      simp only [get_pihole_session] at hres
      split at hres
      · exact SessionResult.noConfusion hres
      · split at hres
        · exact SessionResult.noConfusion hres
        · exact SessionResult.noConfusion hres
    | timeout => simp [get_pihole_session] at hres
    | connError => simp [get_pihole_session] at hres
    | exc msg => simp [get_pihole_session] at hres
  | error tag =>
    refine ⟨tag, rfl, ?_⟩
    rcases hmiss with hnone | ⟨s, hsome, hexp⟩
    · simp [get_cached_session, hkey, hnone, hres]
    · simp [get_cached_session, hkey, hsome, hres, not_lt.mpr hexp]

theorem c6_auth_failure_not_cached_witness :
    ∃ tag, get_pihole_session (.httpErr 401) 200 = .error tag ∧
      get_cached_session "pi" "key" [("pi", ⟨"tok", (100 : Int)⟩)] 200 (.httpErr 401) =
        ⟨.error tag, [("pi", ⟨"tok", 100⟩)], true⟩ :=
  c6_auth_failure_not_cached "pi" "key" [("pi", ⟨"tok", 100⟩)] 200 (.httpErr 401)
    (by decide)
    (fun sid validity message h => AuthResp.noConfusion h)
    (Or.inr ⟨⟨"tok", 100⟩, by simp [lookupS], by norm_num⟩)

/-! ## Docker/Podman endpoint resolution (`docker_mcp_podman.py`) -/

/-- The process environment (`os.environ`): an insertion-ordered list of
`NAME=value` pairs (keys are unique in a real environment; order matters for
dict-iteration semantics). -/
abbrev Env := List (String × String)

/-- First-match environment lookup. -/
def envLookup : Env → String → Option String
  | [], _ => none
  | (k, v) :: rest, key => if k = key then some v else envLookup rest key

/-- `os.getenv(key, default)` / `os.environ.get(key, default)`. -/
def getenv (env : Env) (key d : String) : String :=
  (envLookup env key).getD d

/-- One record of the `CONTAINER_HOSTS` table:
`{'endpoint': 'ip:port', 'runtime': 'docker'|'podman'}`. -/
structure ContainerHost where
  endpoint : String
  runtime : String
deriving Repr, DecidableEq

/-- The `container_hosts` dict built by the resolution functions, keyed by
display name, in insertion order. -/
abbrev CHMap := List (String × ContainerHost)

/-- First-match lookup — Python `display_name in container_hosts`. -/
def lookupCH : CHMap → String → Option ContainerHost
  | [], _ => none
  | (k, v) :: rest, key => if k = key then some v else lookupCH rest key

/-- Python dict assignment `container_hosts[key] = v`. -/
def setKeyCH : CHMap → String → ContainerHost → CHMap
  | [], key, v => [(key, v)]
  | (k, w) :: rest, key, v =>
    if k = key then (key, v) :: rest else (k, w) :: setKeyCH rest key v

/-- Modelled from the spec: the engine of `load_indexed_env_vars` from the
repository's `mcp_config_loader` module, which is not among the sources.  Per
§4.3 of the spec the indexed pattern is "`PREFIX_N_NAME` / `PREFIX_N_ENDPOINT`
pairs sharing a common numeric suffix": each variable `<pre><N><targetSuf>` in
`scanList` whose middle `N` is purely numeric yields one entry
`(N, name, target)`, where `name` is the value of `<pre><N><nameSuf>` in
`nameEnv` (empty when absent) and `target` the endpoint value; entries appear
in scan order.  (`load_indexed_env_vars` instantiates both environments to
`os.environ`; they are split here only so proofs can decompose the scan.) -/
def load_indexed_scan (nameEnv scanList : Env) (pre nameSuf targetSuf : String) :
    List (String × String × String) :=
  scanList.filterMap (fun p =>
    if py_starts_with p.1 pre && py_ends_with p.1 targetSuf then
      if py_is_digit (py_mid p.1 pre.data.length targetSuf.data.length) then
        some (py_mid p.1 pre.data.length targetSuf.data.length,
          getenv nameEnv (pre ++ py_mid p.1 pre.data.length targetSuf.data.length ++ nameSuf) "",
          p.2)
      else none
    else none)

/-- The indexed scan over the whole environment (the list scanned for
`..._ENDPOINT` variables and the environment consulted for the matching
`..._NAME` variables are the same `os.environ`). -/
def load_indexed_env_vars (env : Env) (pre nameSuf targetSuf : String) :
    List (String × String × String) :=
  load_indexed_scan env env pre nameSuf targetSuf

/-- Lines 153–161 of `docker_mcp_podman.py`: scan `os.environ` for a *named*
`PODMAN_*_ENDPOINT` variable (middle non-empty and not purely numeric) whose
value equals the given endpoint — the condition under which an unnamed
indexed podman entry is skipped. -/
def podman_named_counterpart (env : Env) (endpoint : String) : Bool :=
  env.any (fun q =>
    py_starts_with q.1 "PODMAN_" && py_ends_with q.1 "_ENDPOINT" &&
      q.2 == endpoint &&
      (!(py_mid q.1 7 9).data.isEmpty && !(py_mid q.1 7 9).data.all Char.isDigit))

/-- The docker half of Pattern 1 (lines 116–132): one fold step over an
indexed entry `(index, name, endpoint)`. -/
def docker_indexed_step (m : CHMap) (e : String × String × String) : CHMap :=
  if e.2.2 = "" then m
  else
    setKeyCH m (if e.2.1 ≠ "" then e.2.1 else py_lower ("docker-server" ++ e.1))
      ⟨e.2.2, "docker"⟩

/-- The podman half of Pattern 1 (lines 135–170): like the docker step, but an
unnamed indexed entry is skipped when a named `PODMAN_*_ENDPOINT` variable
carries the same endpoint value (the for–else dedup loop). -/
def podman_indexed_step (env : Env) (m : CHMap) (e : String × String × String) : CHMap :=
  if e.2.2 = "" then m
  else if e.2.1 = "" then
    if podman_named_counterpart env e.2.2 then m
    else setKeyCH m (py_lower ("podman-server" ++ e.1)) ⟨e.2.2, "podman"⟩
  else setKeyCH m e.2.1 ⟨e.2.2, "podman"⟩

/-- Pattern 2 (lines 172–203): one step of the scan over `os.environ` for
named `DOCKER_*_ENDPOINT` / `PODMAN_*_ENDPOINT` variables; purely numeric
middles are skipped (they belong to Pattern 1), and a record is added only
when its display name is not already present. -/
def pattern2_step (m : CHMap) (p : String × String) : CHMap :=
  if py_starts_with p.1 "DOCKER_" && py_ends_with p.1 "_ENDPOINT" then
    if py_is_digit (py_mid p.1 7 9) then m
    else
      let display := if !(py_mid p.1 7 9).data.isEmpty then py_lower (py_mid p.1 7 9) else "docker"
      if (lookupCH m display).isSome then m else m ++ [(display, ⟨p.2, "docker"⟩)]
  else if py_starts_with p.1 "PODMAN_" && py_ends_with p.1 "_ENDPOINT" then
    if py_is_digit (py_mid p.1 7 9) then m
    else
      let display := if !(py_mid p.1 7 9).data.isEmpty then py_lower (py_mid p.1 7 9) else "podman"
      if (lookupCH m display).isSome then m else m ++ [(display, ⟨p.2, "podman"⟩)]
  else m

/-- `load_container_hosts_from_env()` of `docker_mcp_podman.py` (lines
103–203): Pattern 1 for the docker prefix, then Pattern 1 for the podman
prefix (with its endpoint-value dedup), then the Pattern 2 scan over the
environment. -/
def load_container_hosts_from_env (env : Env) : CHMap :=
  let m1 := (load_indexed_env_vars env "DOCKER_" "_NAME" "_ENDPOINT").foldl
    docker_indexed_step []
  let m2 := (load_indexed_env_vars env "PODMAN_" "_NAME" "_ENDPOINT").foldl
    (podman_indexed_step env) m1
  env.foldl pattern2_step m2

/-- Modelled from the spec (the manager's interface): the view of
`AnsibleConfigManager` that `load_container_hosts_from_ansible` consumes.
The class lives in the repository's `ansible_config_manager` module, which is
not among the sources; per the spec, `get_group_hosts` resolves a group name
to an ordered hostname → address mapping and `get_host_variable` reads a host
variable with a default. -/
structure ManagerView where
  available : Bool
  groupHosts : String → List (String × String)
  hostVar : String → String → String → String

/-- `load_container_hosts_from_ansible()` of `docker_mcp_podman.py` (lines
50–100): no configured `ANSIBLE_INVENTORY_PATH`, an unavailable manager, and
zero hosts from both the docker and the podman groups each fall back to
`load_container_hosts_from_env`; otherwise records are built from the two
groups with the per-service port variables (docker default 2375, podman
default 8080). -/
def load_container_hosts_from_ansible (env : Env) (mgr : ManagerView) : CHMap :=
  if getenv env "ANSIBLE_INVENTORY_PATH" "" = "" then load_container_hosts_from_env env
  else if !mgr.available then load_container_hosts_from_env env
  else
    let dockerHosts := mgr.groupHosts (getenv env "DOCKER_ANSIBLE_GROUP" "docker_hosts")
    let m1 := dockerHosts.foldl (fun m p =>
      setKeyCH m p.1 ⟨p.2 ++ ":" ++ mgr.hostVar p.1 "docker_api_port" "2375", "docker"⟩) []
    let podmanHosts := mgr.groupHosts (getenv env "PODMAN_ANSIBLE_GROUP" "podman_hosts")
    let m2 := podmanHosts.foldl (fun m p =>
      setKeyCH m p.1 ⟨p.2 ++ ":" ++ mgr.hostVar p.1 "podman_api_port" "8080", "podman"⟩) m1
    if m2.isEmpty then load_container_hosts_from_env env else m2

/-- C3: whenever inventory-based resolution yields zero hosts — no inventory
path configured, manager unavailable, or both service groups empty —
`load_container_hosts_from_ansible` returns exactly the environment-variable
fallback result rather than an empty map; concretely, with no inventory
configured and `DOCKER_CYBER_ENDPOINT=10.0.0.5:2375` as the only variable,
resolution yields exactly one record with display name `cyber`, endpoint
`10.0.0.5:2375`, runtime `docker`. -/
theorem c3_env_fallback (env : Env) (mgr : ManagerView)
    (hzero : getenv env "ANSIBLE_INVENTORY_PATH" "" = "" ∨ mgr.available = false ∨
      (mgr.groupHosts (getenv env "DOCKER_ANSIBLE_GROUP" "docker_hosts") = [] ∧
       mgr.groupHosts (getenv env "PODMAN_ANSIBLE_GROUP" "podman_hosts") = [])) :
    load_container_hosts_from_ansible env mgr = load_container_hosts_from_env env ∧
    ∀ mgr2 : ManagerView,
      load_container_hosts_from_ansible [("DOCKER_CYBER_ENDPOINT", "10.0.0.5:2375")] mgr2 =
        [("cyber", ⟨"10.0.0.5:2375", "docker"⟩)] := by
  constructor
  · rcases hzero with hpath | hunav | ⟨hd, hp⟩
    · simp [load_container_hosts_from_ansible, hpath]
    · simp [load_container_hosts_from_ansible, hunav]
    · simp [load_container_hosts_from_ansible, hd, hp, List.isEmpty]
  · intro mgr2
    have hpath : getenv [("DOCKER_CYBER_ENDPOINT", "10.0.0.5:2375")]
        "ANSIBLE_INVENTORY_PATH" "" = "" := rfl
    rw [load_container_hosts_from_ansible, if_pos hpath]
    rfl

theorem c3_env_fallback_witness :
    load_container_hosts_from_ansible [("DOCKER_CYBER_ENDPOINT", "10.0.0.5:2375")]
        ⟨false, fun _ => [], fun _ _ d => d⟩ =
      [("cyber", ⟨"10.0.0.5:2375", "docker"⟩)] :=
  (c3_env_fallback [("DOCKER_CYBER_ENDPOINT", "10.0.0.5:2375")]
    ⟨false, fun _ => [], fun _ _ d => d⟩ (Or.inr (Or.inl rfl))).2
    ⟨false, fun _ => [], fun _ _ d => d⟩

/-- An environment in which an unnamed indexed docker entry and a named docker
entry carry the same endpoint value. -/
def envC4 : Env :=
  [("DOCKER_1_ENDPOINT", "10.0.0.5:2375"), ("DOCKER_CYBER_ENDPOINT", "10.0.0.5:2375")]

/-- C4 (counterexample): with `DOCKER_1_ENDPOINT` and `DOCKER_CYBER_ENDPOINT`
both set to `10.0.0.5:2375`, the env fallback emits **both** the indexed
record `docker-server1` and the named record `cyber` for that endpoint value:
the docker loop of Pattern 1 (lines 123–132 of `docker_mcp_podman.py`) has no
dedup check, so the indexed entry is not suppressed — refuting the claim's
"applies to both the docker and podman prefixes". -/
theorem c4_counterexample :
    load_container_hosts_from_env envC4 =
      [("docker-server1", ⟨"10.0.0.5:2375", "docker"⟩),
       ("cyber", ⟨"10.0.0.5:2375", "docker"⟩)] := by
  rfl

theorem podman_key_starts (N : String) :
    py_starts_with ("PODMAN_" ++ N ++ "_ENDPOINT") "PODMAN_" = true := by
  unfold py_starts_with
  rw [String.data_append, String.data_append, List.isPrefixOf_iff_prefix,
    List.append_assoc]
  exact List.prefix_append _ _

theorem podman_key_ends (N : String) :
    py_ends_with ("PODMAN_" ++ N ++ "_ENDPOINT") "_ENDPOINT" = true := by
  unfold py_ends_with
  rw [String.data_append, String.data_append, List.isSuffixOf_iff_suffix]
  exact List.suffix_append _ _

theorem podman_key_mid (N : String) :
    py_mid ("PODMAN_" ++ N ++ "_ENDPOINT") 7 9 = N := by
  unfold py_mid
  have h1 : ("PODMAN_" ++ N ++ "_ENDPOINT").data =
      ("PODMAN_" : String).data ++ (N.data ++ ("_ENDPOINT" : String).data) := by
    rw [String.data_append, String.data_append, List.append_assoc]
  rw [h1, List.drop_left' (show (("PODMAN_" : String).data).length = 7 from rfl)]
  have h2 : (N.data ++ ("_ENDPOINT" : String).data).length - 9 = N.data.length := by
    simp [List.length_append]
  rw [h2, List.take_left]

theorem podman_key_not_docker (N : String) :
    py_starts_with ("PODMAN_" ++ N ++ "_ENDPOINT") "DOCKER_" = false := by
  unfold py_starts_with
  rw [String.data_append, String.data_append]
  rfl

theorem name_key_ne (x y : String) : x ++ "_NAME" ≠ y ++ "_ENDPOINT" := by
  intro h
  have hd : (x ++ "_NAME").data = (y ++ "_ENDPOINT").data := by rw [h]
  rw [String.data_append, String.data_append] at hd
  have h1 := congrArg List.getLast? hd
  rw [List.getLast?_append, List.getLast?_append] at h1
  have e1 : (("_NAME" : String).data).getLast? = some 'E' := rfl
  have e2 : (("_ENDPOINT" : String).data).getLast? = some 'T' := rfl
  rw [e1, e2] at h1
  simp [Option.or] at h1

theorem envLookup_filter_ne (env : Env) (k key : String) (h : key ≠ k) :
    envLookup (env.filter (fun p => p.1 ≠ k)) key = envLookup env key := by
  induction env with
  | nil => rfl
  | cons p rest ih =>
    obtain ⟨k', v⟩ := p
    by_cases hk' : k' = k
    · subst hk'
      have hne : ¬(k' = key) := fun hh => h hh.symm
      rw [List.filter_cons, if_neg (by simp), ih]
      simp only [envLookup, if_neg hne]
    · rw [List.filter_cons, if_pos (by simp [hk'])]
      simp only [envLookup]
      by_cases hkey : k' = key
      · simp [hkey]
      · simp only [if_neg hkey]
        exact ih

theorem envLookup_decomp (env : Env) (k v : String)
    (h : envLookup env k = some v) :
    ∃ L1 L2, env = L1 ++ (k, v) :: L2 ∧ k ∉ L1.map Prod.fst := by
  induction env with
  | nil => simp [envLookup] at h
  | cons p rest ih =>
    obtain ⟨k', v'⟩ := p
    by_cases hk : k' = k
    · subst hk
      rw [envLookup, if_pos rfl] at h
      cases h
      exact ⟨[], rest, rfl, by simp⟩
    · rw [envLookup, if_neg hk] at h
      obtain ⟨L1, L2, heq, hnot⟩ := ih h
      refine ⟨(k', v') :: L1, L2, by rw [heq]; rfl, ?_⟩
      simp only [List.map_cons, List.mem_cons]
      push_neg
      exact ⟨fun hh => hk hh.symm, by simpa using hnot⟩

theorem envLookup_middle_ne (X Y : Env) (e : String × String) (key : String)
    (h : key ≠ e.1) : envLookup (X ++ e :: Y) key = envLookup (X ++ Y) key := by
  induction X with
  | nil =>
    simp only [List.nil_append]
    obtain ⟨k', v⟩ := e
    simp only [envLookup]
    rw [if_neg (fun hh : k' = key => h (by simp [hh.symm]))]
  | cons p rest ih =>
    obtain ⟨k', v⟩ := p
    simp only [List.cons_append, envLookup]
    by_cases hk : k' = key
    · simp [hk]
    · simp only [if_neg hk]
      exact ih

theorem foldl_ext {α β : Type} (f g : β → α → β) (h : ∀ m a, f m a = g m a) :
    ∀ (l : List α) (m0 : β), l.foldl f m0 = l.foldl g m0
  | [], _ => rfl
  | a :: rest, m0 => by
    rw [List.foldl_cons, List.foldl_cons, h, foldl_ext f g h rest]

theorem foldl_middle_id {α β : Type} (f : β → α → β) (e : α) (he : ∀ m, f m e = m)
    (X Y : List α) (m0 : β) : (X ++ e :: Y).foldl f m0 = (X ++ Y).foldl f m0 := by
  rw [List.foldl_append, List.foldl_cons, he, ← List.foldl_append]

theorem podman_counterpart_middle (L1 L2 : Env) (N E x : String)
    (hdig : py_is_digit N = true) :
    podman_named_counterpart (L1 ++ ("PODMAN_" ++ N ++ "_ENDPOINT", E) :: L2) x =
      podman_named_counterpart (L1 ++ L2) x := by
  unfold podman_named_counterpart
  rw [List.any_append, List.any_cons, List.any_append]
  have hall : N.data.all Char.isDigit = true := by
    unfold py_is_digit at hdig
    rw [Bool.and_eq_true] at hdig
    exact hdig.2
  rw [podman_key_mid, hall]
  simp

theorem pattern2_step_kN (m : CHMap) (N E : String) (hdig : py_is_digit N = true) :
    pattern2_step m ("PODMAN_" ++ N ++ "_ENDPOINT", E) = m := by
  unfold pattern2_step
  rw [podman_key_not_docker]
  simp only [Bool.false_and, Bool.false_eq_true, if_false]
  rw [podman_key_starts, podman_key_ends]
  simp only [Bool.and_self, if_true]
  rw [podman_key_mid, hdig]
  simp

theorem podman_step_suppressed (env : Env) (m : CHMap) (N E : String)
    (hcp : podman_named_counterpart env E = true) :
    podman_indexed_step env m (N, "", E) = m := by
  unfold podman_indexed_step
  by_cases hE : E = ""
  · simp [hE]
  · simp [hE, hcp]

/-- C4 (amended): the endpoint-value deduplication exists only on the podman
side and only for *unnamed* indexed entries: when `PODMAN_N_ENDPOINT` (`N`
purely numeric) has no accompanying `PODMAN_N_NAME` and its value also
appears under some named, non-numeric `PODMAN_<NAME>_ENDPOINT`, the env
fallback suppresses that indexed entry completely — the result equals the
resolution of the same environment with the `PODMAN_N_ENDPOINT` variable
removed, leaving the endpoint to the named form's display name.  (For the
docker prefix there is no suppression: see the counterexample, where both the
indexed and the named record are emitted.) -/
theorem c4_podman_unnamed_suppression (env : Env) (N E : String)
    (hdig : py_is_digit N = true)
    (hep : envLookup env ("PODMAN_" ++ N ++ "_ENDPOINT") = some E)
    (hname : getenv env ("PODMAN_" ++ N ++ "_NAME") "" = "")
    (hcp : podman_named_counterpart env E = true)
    (hnodup : (env.map Prod.fst).Nodup) :
    load_container_hosts_from_env env =
      load_container_hosts_from_env
        (env.filter (fun p => p.1 ≠ "PODMAN_" ++ N ++ "_ENDPOINT")) := by
  obtain ⟨L1, L2, henv, hL1⟩ := envLookup_decomp env ("PODMAN_" ++ N ++ "_ENDPOINT") E hep
  have hL2 : ("PODMAN_" ++ N ++ "_ENDPOINT") ∉ L2.map Prod.fst := by
    rw [henv] at hnodup
    simp only [List.map_append, List.map_cons, List.nodup_append] at hnodup
    exact (List.nodup_cons.mp hnodup.2.1).1
  have hfilter : env.filter (fun p => p.1 ≠ "PODMAN_" ++ N ++ "_ENDPOINT") = L1 ++ L2 := by
    rw [henv, List.filter_append, List.filter_cons, if_neg (by simp)]
    rw [List.filter_eq_self.mpr (fun a ha => by
      simp only [decide_eq_true_eq]
      intro hh
      exact hL1 (hh ▸ List.mem_map_of_mem Prod.fst ha))]
    rw [List.filter_eq_self.mpr (fun a ha => by
      simp only [decide_eq_true_eq]
      intro hh
      exact hL2 (hh ▸ List.mem_map_of_mem Prod.fst ha))]
  rw [hfilter]
  -- names read through the environment are unaffected by dropping the
  -- `..._ENDPOINT` entry
  have hgetenv : ∀ (x : String),
      getenv (L1 ++ L2) (x ++ "_NAME") "" = getenv env (x ++ "_NAME") "" := by
    intro x
    unfold getenv
    rw [henv, envLookup_middle_ne]
    exact name_key_ne x ("PODMAN_" ++ N)
  have hscanName : ∀ (X : Env) (pre : String),
      load_indexed_scan (L1 ++ L2) X pre "_NAME" "_ENDPOINT" =
        load_indexed_scan env X pre "_NAME" "_ENDPOINT" := by
    intro X pre
    unfold load_indexed_scan
    apply List.filterMap_congr
    intro p hp
    dsimp only
    by_cases h1 : (py_starts_with p.1 pre && py_ends_with p.1 "_ENDPOINT") = true
    · rw [if_pos h1, if_pos h1]
      by_cases h2 : py_is_digit
          (py_mid p.1 pre.data.length ("_ENDPOINT" : String).data.length) = true
      · rw [if_pos h2, if_pos h2,
          hgetenv (pre ++ py_mid p.1 pre.data.length ("_ENDPOINT" : String).data.length)]
      · rw [if_neg h2, if_neg h2]
    · rw [if_neg h1, if_neg h1]
  have hscanAppend : ∀ (X Y : Env) (pre : String),
      load_indexed_scan env (X ++ Y) pre "_NAME" "_ENDPOINT" =
        load_indexed_scan env X pre "_NAME" "_ENDPOINT" ++
        load_indexed_scan env Y pre "_NAME" "_ENDPOINT" := by
    intro X Y pre
    unfold load_indexed_scan
    exact List.filterMap_append X Y _
  have hscanCons : ∀ (X Y : Env) (e : String × String) (pre : String),
      load_indexed_scan env (X ++ e :: Y) pre "_NAME" "_ENDPOINT" =
        load_indexed_scan env X pre "_NAME" "_ENDPOINT" ++
        load_indexed_scan env [e] pre "_NAME" "_ENDPOINT" ++
        load_indexed_scan env Y pre "_NAME" "_ENDPOINT" := by
    intro X Y e pre
    rw [show X ++ e :: Y = (X ++ [e]) ++ Y by simp, hscanAppend, hscanAppend]
  -- the suppressed entry's own contribution to the two scans
  have hmidDocker : load_indexed_scan env [("PODMAN_" ++ N ++ "_ENDPOINT", E)]
      "DOCKER_" "_NAME" "_ENDPOINT" = [] := by
    unfold load_indexed_scan
    simp only [List.filterMap_cons, List.filterMap_nil]
    rw [podman_key_not_docker]
    simp
  have hmidPodman : load_indexed_scan env [("PODMAN_" ++ N ++ "_ENDPOINT", E)]
      "PODMAN_" "_NAME" "_ENDPOINT" = [(N, "", E)] := by
    unfold load_indexed_scan
    simp only [List.filterMap_cons, List.filterMap_nil]
    rw [podman_key_starts, podman_key_ends]
    simp only [Bool.and_self, if_true]
    rw [show (("PODMAN_" : String).data).length = 7 from rfl,
      show (("_ENDPOINT" : String).data).length = 9 from rfl,
      podman_key_mid, hdig]
    simp only [if_true]
    rw [hname]
  -- assemble: docker indexed lists agree
  have hdockerIdx : load_indexed_env_vars (L1 ++ L2) "DOCKER_" "_NAME" "_ENDPOINT" =
      load_indexed_env_vars env "DOCKER_" "_NAME" "_ENDPOINT" := by
    unfold load_indexed_env_vars
    rw [hscanName]
    have h2 : load_indexed_scan env env "DOCKER_" "_NAME" "_ENDPOINT" =
        load_indexed_scan env (L1 ++ ("PODMAN_" ++ N ++ "_ENDPOINT", E) :: L2)
          "DOCKER_" "_NAME" "_ENDPOINT" :=
      congrArg (fun X => load_indexed_scan env X "DOCKER_" "_NAME" "_ENDPOINT") henv
    rw [h2, hscanCons, hmidDocker]
    rw [hscanAppend]
    simp
  -- podman indexed list: the env run has exactly one extra, suppressed entry
  have hpodmanIdx : load_indexed_env_vars env "PODMAN_" "_NAME" "_ENDPOINT" =
      load_indexed_scan env L1 "PODMAN_" "_NAME" "_ENDPOINT" ++ (N, "", E) ::
        load_indexed_scan env L2 "PODMAN_" "_NAME" "_ENDPOINT" := by
    unfold load_indexed_env_vars
    have h2 : load_indexed_scan env env "PODMAN_" "_NAME" "_ENDPOINT" =
        load_indexed_scan env (L1 ++ ("PODMAN_" ++ N ++ "_ENDPOINT", E) :: L2)
          "PODMAN_" "_NAME" "_ENDPOINT" :=
      congrArg (fun X => load_indexed_scan env X "PODMAN_" "_NAME" "_ENDPOINT") henv
    rw [h2, hscanCons, hmidPodman]
    simp
  have hpodmanIdx' : load_indexed_env_vars (L1 ++ L2) "PODMAN_" "_NAME" "_ENDPOINT" =
      load_indexed_scan env L1 "PODMAN_" "_NAME" "_ENDPOINT" ++
        load_indexed_scan env L2 "PODMAN_" "_NAME" "_ENDPOINT" := by
    unfold load_indexed_env_vars
    rw [hscanName, hscanAppend]
  -- the podman fold steps of the two runs agree, and the suppressed entry is
  -- a no-op
  have hstep : ∀ (m : CHMap) (e : String × String × String),
      podman_indexed_step (L1 ++ L2) m e = podman_indexed_step env m e := by
    intro m e
    unfold podman_indexed_step
    have hcpx : podman_named_counterpart (L1 ++ L2) e.2.2 =
        podman_named_counterpart env e.2.2 := by
      conv_rhs => rw [henv]
      rw [podman_counterpart_middle L1 L2 N E e.2.2 hdig]
    rw [hcpx]
  have hcpE : podman_named_counterpart env E = true := hcp
  -- now rewrite both sides of the main goal
  unfold load_container_hosts_from_env
  simp only []
  rw [hdockerIdx, hpodmanIdx, hpodmanIdx']
  rw [foldl_ext (podman_indexed_step (L1 ++ L2)) (podman_indexed_step env) hstep]
  rw [foldl_middle_id (podman_indexed_step env) (N, "", E)
    (fun m => podman_step_suppressed env m N E hcpE)]
  have hfin : ∀ m : CHMap, List.foldl pattern2_step m env =
      List.foldl pattern2_step m (L1 ++ L2) := by
    intro m
    rw [show List.foldl pattern2_step m env =
        List.foldl pattern2_step m (L1 ++ ("PODMAN_" ++ N ++ "_ENDPOINT", E) :: L2) from by
      rw [← henv]]
    exact foldl_middle_id pattern2_step _ (fun m' => pattern2_step_kN m' N E hdig) L1 L2 m
  rw [hfin]

theorem c4_podman_unnamed_suppression_witness :
    load_container_hosts_from_env
        [("PODMAN_15_ENDPOINT", "10.0.0.7:8080"), ("PODMAN_HL15_ENDPOINT", "10.0.0.7:8080")] =
      load_container_hosts_from_env
        ([("PODMAN_15_ENDPOINT", "10.0.0.7:8080"),
          ("PODMAN_HL15_ENDPOINT", "10.0.0.7:8080")].filter
            (fun p => p.1 ≠ "PODMAN_" ++ "15" ++ "_ENDPOINT")) ∧
    load_container_hosts_from_env
        [("PODMAN_15_ENDPOINT", "10.0.0.7:8080"), ("PODMAN_HL15_ENDPOINT", "10.0.0.7:8080")] =
      [("hl15", ⟨"10.0.0.7:8080", "podman"⟩)] := by
  constructor
  · exact c4_podman_unnamed_suppression
      [("PODMAN_15_ENDPOINT", "10.0.0.7:8080"), ("PODMAN_HL15_ENDPOINT", "10.0.0.7:8080")]
      "15" "10.0.0.7:8080" (by decide) (by decide) (by decide) (by decide) (by decide)
  · rfl

/-! ## Group ping fan-out (`ping_mcp_server.py`)

`ping_group` resolves the inventory, looks the group up in
`inventory["groups"]`, builds one `ping_host` task per member that is present
in `inventory["hosts"]`, gathers the results, sorts them reachable-first and
prints them under a header reporting `len(hostnames)`.  Each member's `ping`
subprocess outcome (return code plus the regex-parsed packet/RTT statistics
of its stdout, or a timeout/exception of the `except` branches) enters the
embedding as an explicit `PingOutcome` parameter. -/

/-- First-match lookup in a Python dict rendered as an association list. -/
def lookupA {α : Type} : List (String × α) → String → Option α
  | [], _ => none
  | (k, v) :: rest, key => if k = key then some v else lookupA rest key

/-- Host data as the ping server's `_load_inventory` delivers it:
`{"vars": {...}, "groups": [...]}` with scalar variable values. -/
structure PingHostData where
  vars : List (String × String)
  groups : List String
deriving Repr, DecidableEq

/-- The resolved inventory consumed by the ping tools:
`{"hosts": {...}, "groups": {...}}`. -/
structure PingInventory where
  hosts : List (String × PingHostData)
  groups : List (String × List String)
deriving Repr, DecidableEq

/-- `get_host_ip(hostname, host_data)` (`ping_mcp_server.py` lines 165-183):
the `ansible_host` variable wins, then `static_ip`, else the hostname itself
with any `:`-suffix stripped (`hostname.split(":")[0]`). -/
def get_host_ip (hostname : String) (host_data : PingHostData) : String :=
  match lookupA host_data.vars "ansible_host" with
  | some ip => ip
  | none =>
    match lookupA host_data.vars "static_ip" with
    | some ip => ip
    | none =>
      if hostname.data.contains ':' then ⟨hostname.data.takeWhile (fun ch => ch != ':')⟩
      else hostname

/-- The outcome of the `ping` subprocess for one target as `ping_host`
observes it: the process completed with a return code and the regex-parsed
statistics of its stdout (`none` models a non-matching output), or
`asyncio.wait_for` timed out, or another exception was raised. -/
inductive PingOutcome where
  | completed (returncode : Int) (received : Option Nat) (rtt : Option (Rat × Rat × Rat))
  | timedOut
  | raised (ename emsg : String)
deriving Repr, DecidableEq

/-- The per-host result dict built by `ping_host` (lines 186-285).  Keys the
timeout/exception branches do not set are `none` here. -/
structure PingResult where
  host : String
  reachable : Bool
  packets_sent : Option Nat
  packets_received : Option Nat
  packet_loss : Option Rat
  rtt_min : Option Rat
  rtt_avg : Option Rat
  rtt_max : Option Rat
  error : Option String
deriving Repr, DecidableEq

/-- `ping_host(host, count, timeout)` (lines 186-285) on a given subprocess
outcome.  Return code 0 marks the host reachable and fills the parsed
statistics over the defaults `(0 received, 100% loss)`; a non-zero return
code fills the `error` key; timeout and exceptions return the short dicts of
the `except` branches.  Percentages are exact rationals here where Python
uses floats. -/
def ping_host (host : String) (count timeout : Nat) (outcome : PingOutcome) : PingResult :=
  match outcome with
  | .completed rc received rtt =>
    let base : PingResult :=
      { host := host, reachable := rc == 0, packets_sent := some count,
        packets_received := some 0, packet_loss := some 100,
        rtt_min := none, rtt_avg := none, rtt_max := none, error := none }
    if rc == 0 then
      let withPackets :=
        match received with
        | some r =>
          { base with
            packets_received := some r,
            packet_loss := some ((((count : Rat) - (r : Rat)) / (count : Rat)) * 100) }
        | none => base
      match rtt with
      | some t =>
        { withPackets with rtt_min := some t.1, rtt_avg := some t.2.1, rtt_max := some t.2.2 }
      | none => withPackets
    else
      { base with error := some ("Ping failed with return code " ++ toString rc) }
  | .timedOut =>
    { host := host, reachable := false, packets_sent := none, packets_received := none,
      packet_loss := none, rtt_min := none, rtt_avg := none, rtt_max := none,
      error := some ("Ping timeout after " ++ toString (timeout + 5) ++ " seconds") }
  | .raised ename emsg =>
    { host := host, reachable := false, packets_sent := none, packets_received := none,
      packet_loss := none, rtt_min := none, rtt_avg := none, rtt_max := none,
      error := some (ename ++ ": " ++ emsg) }

/-- `not r["reachable"]` of the sort key, as the Nat `False < True` order. -/
def notReachableRank (r : PingResult) : Nat := if r.reachable then 0 else 1

/-- The Python sort key `(not r["reachable"], r["host"])` of line 461 as a
`Bool`-valued total preorder: reachable entries first, then ascending host. -/
def pingKeyLe (a b : PingResult) : Bool :=
  decide (notReachableRank a < notReachableRank b) ||
    (decide (notReachableRank a = notReachableRank b) && decide (a.host ≤ b.host))

/-- `results.sort(key=...)` — Python's stable sort, modelled by the (also
stable) `mergeSort`. -/
def sortResults (l : List PingResult) : List PingResult := l.mergeSort pingKeyLe

/-- Output of `ping_group` up to text formatting: the
`format_inventory_error` branch for an unknown group (carrying the available
group names), or the member count printed in the header together with the
sorted per-host result entries. -/
inductive PingGroupOutput where
  | notFound (available : List String)
  | results (memberCount : Nat) (entries : List PingResult)
deriving Repr, DecidableEq

/-- `ping_group(group, count, timeout)` (lines 428-471), each member's
subprocess outcome supplied by `outcomes`: unknown group takes the error
branch; otherwise one `ping_host` per member that is present in
`inventory["hosts"]` (lines 452-456 — absent members build no task), results
sorted by the key of line 461, header reporting `len(hostnames)`. -/
def ping_group (inv : PingInventory) (group : String) (count timeout : Nat)
    (outcomes : String → PingOutcome) : PingGroupOutput :=
  match lookupA inv.groups group with
  | none => .notFound (inv.groups.map Prod.fst)
  | some hostnames =>
    .results hostnames.length
      (sortResults (hostnames.filterMap (fun hn =>
        match lookupA inv.hosts hn with
        | some hd => some (ping_host (get_host_ip hn hd) count timeout (outcomes hn))
        | none => none)))

/-- Whether a subprocess outcome counts as reachable: completed with
return code 0. -/
def reachableOutcome : PingOutcome → Bool
  | .completed rc _ _ => rc == 0
  | _ => false

theorem ping_host_reachable (h : String) (count timeout : Nat) (o : PingOutcome) :
    (ping_host h count timeout o).reachable = reachableOutcome o := by
  cases o with
  | completed rc received rtt =>
    by_cases hrc : rc = 0
    · subst hrc
      cases received <;> rcases rtt with _ | ⟨mn, avg, mx⟩ <;> rfl
    · have hb : (rc == 0) = false := beq_eq_false_iff_ne.mpr hrc
      simp [ping_host, reachableOutcome, hb]
  | timedOut => rfl
  | raised e m => rfl

theorem ping_host_error_isSome (h : String) (count timeout : Nat) (o : PingOutcome)
    (hnr : reachableOutcome o = false) :
    (ping_host h count timeout o).error.isSome = true := by
  cases o with
  | completed rc received rtt =>
    have hb : (rc == 0) = false := hnr
    simp [ping_host, hb]
  | timedOut => rfl
  | raised e m => rfl

theorem length_filterMap_countP {α β : Type} (f : α → Option β) :
    ∀ l : List α, (l.filterMap f).length = l.countP (fun a => (f a).isSome)
  | [] => rfl
  | a :: l => by
    rw [List.filterMap_cons, List.countP_cons]
    cases hfa : f a <;> simp [hfa, length_filterMap_countP f l]

theorem sortResults_perm (l : List PingResult) : (sortResults l).Perm l :=
  List.mergeSort_perm l pingKeyLe

/-- C9: for a group of three members, all present in the resolved host map,
where two targets answer (return code 0) and one does not, `ping_group`
completes with exactly 3 per-host result entries — 2 marked reachable and 1
unreachable entry carrying an inline `error` value — rather than aborting on
the per-host failure. -/
theorem c9_fanout_partial_failure (inv : PingInventory) (g a b c : String)
    (count timeout : Nat) (outcomes : String → PingOutcome)
    (da db dc : PingHostData)
    (hg : lookupA inv.groups g = some [a, b, c])
    (ha : lookupA inv.hosts a = some da)
    (hb : lookupA inv.hosts b = some db)
    (hc : lookupA inv.hosts c = some dc)
    (hoa : reachableOutcome (outcomes a) = true)
    (hob : reachableOutcome (outcomes b) = true)
    (hoc : reachableOutcome (outcomes c) = false) :
    ∃ entries, ping_group inv g count timeout outcomes = .results 3 entries ∧
      entries.length = 3 ∧
      entries.countP (fun r => r.reachable) = 2 ∧
      entries.countP (fun r => !r.reachable && r.error.isSome) = 1 := by
  have hpg : ping_group inv g count timeout outcomes =
      .results 3 (sortResults
        [ping_host (get_host_ip a da) count timeout (outcomes a),
         ping_host (get_host_ip b db) count timeout (outcomes b),
         ping_host (get_host_ip c dc) count timeout (outcomes c)]) := by
    unfold ping_group
    rw [hg]
    simp [List.filterMap_cons, ha, hb, hc]
  have hperm := sortResults_perm
    [ping_host (get_host_ip a da) count timeout (outcomes a),
     ping_host (get_host_ip b db) count timeout (outcomes b),
     ping_host (get_host_ip c dc) count timeout (outcomes c)]
  refine ⟨_, hpg, ?_, ?_, ?_⟩
  · rw [hperm.length_eq]
    rfl
  · rw [hperm.countP_eq]
    simp [List.countP_cons, ping_host_reachable, hoa, hob, hoc]
  · rw [hperm.countP_eq]
    have herr := ping_host_error_isSome (get_host_ip c dc) count timeout (outcomes c) hoc
    simp [List.countP_cons, ping_host_reachable, hoa, hob, hoc, herr]

/-- Concrete inventory for exercising the fan-out: three members of `g`,
all present in the host map. -/
def inv9 : PingInventory :=
  ⟨[("a", ⟨[("ansible_host", "10.0.0.1")], ["g"]⟩), ("b", ⟨[], ["g"]⟩), ("c", ⟨[], ["g"]⟩)],
   [("g", ["a", "b", "c"])]⟩

/-- Subprocess outcomes: `a` and `b` answer, `c` times out. -/
def outcomes9 : String → PingOutcome := fun hn =>
  if hn = "c" then .timedOut else .completed 0 (some 2) (some (1, 2, 3))

theorem c9_fanout_partial_failure_witness :
    ∃ entries, ping_group inv9 "g" 2 3 outcomes9 = .results 3 entries ∧
      entries.length = 3 ∧
      entries.countP (fun r => r.reachable) = 2 ∧
      entries.countP (fun r => !r.reachable && r.error.isSome) = 1 :=
  c9_fanout_partial_failure inv9 "g" "a" "b" "c" 2 3 outcomes9
    ⟨[("ansible_host", "10.0.0.1")], ["g"]⟩ ⟨[], ["g"]⟩ ⟨[], ["g"]⟩
    rfl rfl rfl rfl rfl rfl rfl

/-- C10 (implicit): `ping_group` builds one ping task per member that is
present in `inventory["hosts"]` and silently skips absent members — its
entry list is a permutation of the present members' `ping_host` results,
with exactly one entry per present member and no entry (error or otherwise)
for an absent one — while the header still reports the full member count. -/
theorem c10_absent_members_skipped (inv : PingInventory) (g : String)
    (members : List String) (count timeout : Nat) (outcomes : String → PingOutcome)
    (hg : lookupA inv.groups g = some members) :
    ∃ entries, ping_group inv g count timeout outcomes = .results members.length entries ∧
      entries.length = members.countP (fun hn => (lookupA inv.hosts hn).isSome) ∧
      entries.Perm (members.filterMap (fun hn =>
        match lookupA inv.hosts hn with
        | some hd => some (ping_host (get_host_ip hn hd) count timeout (outcomes hn))
        | none => none)) := by
  have hpg : ping_group inv g count timeout outcomes =
      .results members.length (sortResults (members.filterMap (fun hn =>
        match lookupA inv.hosts hn with
        | some hd => some (ping_host (get_host_ip hn hd) count timeout (outcomes hn))
        | none => none))) := by
    unfold ping_group
    rw [hg]
  refine ⟨_, hpg, ?_, sortResults_perm _⟩
  rw [(sortResults_perm _).length_eq, length_filterMap_countP]
  refine List.countP_congr (fun hn _ => ?_)
  cases hlk : lookupA inv.hosts hn <;> simp [hlk]

/-- Concrete inventory: group `grp` lists two members but only `alpha` is in
the host map. -/
def inv10 : PingInventory := ⟨[("alpha", ⟨[], []⟩)], [("grp", ["alpha", "ghost"])]⟩

theorem c10_absent_members_skipped_witness :
    (∃ entries, ping_group inv10 "grp" 1 1 (fun _ => PingOutcome.timedOut) =
        .results (["alpha", "ghost"].length) entries ∧
      entries.length = ["alpha", "ghost"].countP (fun hn => (lookupA inv10.hosts hn).isSome) ∧
      entries.Perm (["alpha", "ghost"].filterMap (fun hn =>
        match lookupA inv10.hosts hn with
        | some hd => some (ping_host (get_host_ip hn hd) 1 1 PingOutcome.timedOut)
        | none => none))) ∧
    ["alpha", "ghost"].length = 2 ∧
    ["alpha", "ghost"].countP (fun hn => (lookupA inv10.hosts hn).isSome) = 1 :=
  ⟨c10_absent_members_skipped inv10 "grp" ["alpha", "ghost"] 1 1
      (fun _ => PingOutcome.timedOut) rfl,
    rfl, by decide⟩

end HomelabMcp
